import Mathlib

/-!
# Verification of the lilith-browser hybrid retrieval and ingestion core

Shallow embedding of the core of `lilith-browser`:

* `src/mcp_server/hybrid_search.py` — filter parsing, the per-kind hybrid
  search engines (`HybridHistorySearchEngine`, `HybridBookmarkSearchEngine`)
  with their structured / fulltext / vector sub-queries, max-of-scores
  fusion, `count` and `aggregate`;
* `src/mcp_server/tools.py` — the cross-kind merge of
  `search_browser_unified_tool` and its weighted-average `_fused_score`;
* `src/ingest/sync.py` — identity-keyed upsert (`upsert_history`,
  `upsert_bookmarks`) and the embedding backfill batches
  (`embed_history_batch`, `embed_bookmarks_batch`, `run_embedding_backfill`).

Modelling conventions:

* The SQL store is a `List` of records; `SELECT ... WHERE` clauses become
  `List.filter`, `ORDER BY` becomes a stable insertion sort (`sortBy`),
  `LIMIT` becomes `List.take`.  SQLAlchemy ORM mutation of selected rows
  becomes positional update of the list.
* `float` scores are modelled as `ℚ` (the Python literals 0.85, 0.7, 0.03
  etc. are exact decimal fractions).
* The external embedding service is a black box: the outcome of one
  `encode_sync` call is a parameter of type `Option (List (List ℚ))`, where
  `none` models a raised exception or a non-list response.
* The Postgres fulltext oracle (`plainto_tsquery` / `ts_rank_cd` / `@@`) and
  the pgvector cosine distance are black boxes, passed as function-valued
  parameters (`FtOracle`, `VecOracle`).
* Python `datetime` values are `Timestamp` records compared
  lexicographically; `datetime.fromisoformat` is stdlib, so a parsed date
  input is modelled as the `DateInput` variant it produces (`bare` for a
  plain `YYYY-MM-DD` date, `dt` for a full date-time).
* `hashlib.sha256` (`_url_digest`) is modelled as an abstract injective
  content hash; the code only ever compares digests for equality and relies
  on digest equality coinciding with byte-equality of URLs, so the model
  uses the identity function on strings.
* Wall-clock timings (`time.monotonic`) are not modelled; `datetime.now`
  becomes an explicit `now : Nat` parameter.
-/

/-- Retrieval method names, `{"structured", "fulltext", "vector"}`. -/
inductive Method
  | structured
  | fulltext
  | vector
deriving DecidableEq, Repr

/-- Model: `tools.py` line 156: `weights = {"structured": 1.0, "fulltext": 0.85, "vector": 0.7}`.
`weights.get(meth, 0.5)` has a default of 0.5, unreachable because every score
key produced by the engines is one of the three methods. -/
def methodWeight : Method → ℚ
  | .structured => 1
  | .fulltext => 17 / 20
  | .vector => 7 / 10

/-- Model: `hybrid_search.py` line 179 (and 356): `final_score = max(res["scores"].values())` —
the per-kind engine's fusion of a result's per-method score map.
Python `max` on an empty dict raises; the `[]` case is unreachable because an
entry is only created together with its first score. -/
def engineFusedScore : List (Method × ℚ) → ℚ
  | [] => 0
  | p :: rest => rest.foldl (fun acc q => max acc q.2) p.2

/-- Model: `tools.py` lines 158-164, `_fused_score`: weighted average
`Σ(score·weight)/Σ(weight)` over the methods present in the score map,
0.0 for an empty map — the cross-kind merge's ranking score. -/
def mergeFusedScore (scores : List (Method × ℚ)) : ℚ :=
  if scores.isEmpty then 0
  else
    let tw := (scores.map (fun p => methodWeight p.1)).sum
    let ts := (scores.map (fun p => p.2 * methodWeight p.1)).sum
    if 0 < tw then ts / tw else 0

/-- Policy (a) of the spec, in the spec's words: weighted-average fusion with
fixed per-method weights, `final score = Σ(score·weight)/Σ(weight)` over
contributing methods only. -/
def specWeightedAvg (scores : List (Method × ℚ)) : ℚ :=
  (scores.map (fun p => p.2 * methodWeight p.1)).sum /
    (scores.map (fun p => methodWeight p.1)).sum

/-- Policy (b) of the spec, in the spec's words: max-of-scores across
contributing methods (0 for an empty map, which the spec never evaluates). -/
def specMaxScore : List (Method × ℚ) → ℚ
  | [] => 0
  | p :: rest => rest.foldl (fun acc q => max acc q.2) p.2

/-- Python `datetime` components (year, month, day, hour, minute, second,
microsecond), compared lexicographically. -/
structure Timestamp where
  y : Nat
  mo : Nat
  d : Nat
  hh : Nat
  mi : Nat
  ss : Nat
  us : Nat
deriving DecidableEq, Repr

/-- Lexicographic `≤` on `Timestamp`, the order `datetime` comparison uses. -/
def tsLe (a b : Timestamp) : Bool :=
  if a.y ≠ b.y then decide (a.y < b.y)
  else if a.mo ≠ b.mo then decide (a.mo < b.mo)
  else if a.d ≠ b.d then decide (a.d < b.d)
  else if a.hh ≠ b.hh then decide (a.hh < b.hh)
  else if a.mi ≠ b.mi then decide (a.mi < b.mi)
  else if a.ss ≠ b.ss then decide (a.ss < b.ss)
  else decide (a.us ≤ b.us)

/-- The shape `_parse_date_bound`'s input string parses to: a bare ISO date
(no "T" and no space in the string) or a full date-time.  The string-level
parsing itself is Python stdlib (`date.fromisoformat` /
`datetime.fromisoformat`), external to this core. -/
inductive DateInput
  | bare (y mo d : Nat)
  | dt (t : Timestamp)
deriving DecidableEq, Repr

/-- Model: `hybrid_search.py` lines 16-26, `_parse_date_bound`: a full date-time is
returned as parsed; a bare date becomes end of day `23:59:59.999999` when
`end_of_day` is set, else start of day `00:00:00`. -/
def parseDateBound (v : DateInput) (endOfDay : Bool) : Timestamp :=
  match v with
  | .dt t => t
  | .bare y mo d =>
      if endOfDay then ⟨y, mo, d, 23, 59, 59, 999999⟩ else ⟨y, mo, d, 0, 0, 0, 0⟩

/-- A filter's `value` entry: a date bound (already parsed, see `DateInput`)
or a plain string.  A Python falsy value (`None`, or absent) is modelled as
`Option.none` at the `QFilter` level; an empty string is `.str ""`. -/
inductive FilterValue
  | date (v : DateInput)
  | str (s : String)
deriving DecidableEq, Repr

/-- One filter dict `{"field": ..., "value": ...}` of the `filters` list. -/
structure QFilter where
  field : String
  value : Option FilterValue
deriving DecidableEq, Repr

/-- Case-insensitive substring check over character lists (prefix step). -/
def leadMatch : List Char → List Char → Bool
  | [], _ => true
  | _ :: _, [] => false
  | a :: as, b :: bs => a == b && leadMatch as bs

/-- Substring search over character lists. -/
def hasSub (needle : List Char) : List Char → Bool
  | [] => needle.isEmpty
  | c :: t => leadMatch needle (c :: t) || hasSub needle t

/-- SQL `ILIKE '%sub%'`: case-insensitive substring containment. -/
def containsCI (hay sub : String) : Bool :=
  hasSub sub.toLower.toList hay.toLower.toList

/-- A row of the `history` table (`core/models.py`, `HistoryEntry`).
`created_at` / `updated_at` / `embedding_computed_at` / `deleted_at` are
abstract clock values (`Nat`); `last_visit_time` is a calendar `Timestamp`
because the date filters compare against it. -/
structure HRecord where
  id : Nat
  url : String
  title : Option String
  snippet : Option String
  domain : Option String
  lastVisitTime : Option Timestamp
  visitCount : Nat
  browser : Option String
  embedding : Option (List ℚ)
  embeddingComputedAt : Option Nat
  searchTsv : Option String
  createdAt : Nat
  updatedAt : Nat
  deletedAt : Option Nat
deriving DecidableEq, Repr

/-- A row of the `bookmarks` table (`core/models.py`, `Bookmark`). -/
structure BRecord where
  id : Nat
  url : String
  title : Option String
  snippet : Option String
  folder : Option String
  addedAt : Option Timestamp
  browser : Option String
  embedding : Option (List ℚ)
  embeddingComputedAt : Option Nat
  searchTsv : Option String
  createdAt : Nat
  updatedAt : Nat
  deletedAt : Option Nat
deriving DecidableEq, Repr

/-- One clause of `_apply_history_filters` (lines 38-51): `date_after` and
`date_before` compare `last_visit_time` against the parsed bound (SQL `NULL`
comparisons are not true, so a record with no `last_visit_time` fails a date
clause); `domain` is a case-insensitive substring match.  A clause with a
falsy value or an unrecognized field imposes no constraint. -/
def histClause (r : HRecord) (f : QFilter) : Bool :=
  match f.field, f.value with
  | "date_after", some (.date v) =>
      match r.lastVisitTime with
      | some t => tsLe (parseDateBound v false) t
      | none => false
  | "date_before", some (.date v) =>
      match r.lastVisitTime with
      | some t => tsLe t (parseDateBound v true)
      | none => false
  | "domain", some (.str s) =>
      if s = "" then true
      else
        match r.domain with
        | some dom => containsCI dom s
        | none => false
  | _, _ => true

/-- Model: `_apply_history_filters` (lines 33-52): always excludes soft-deleted rows
(`deleted_at IS NULL`), then conjoins the recognized filter clauses.  `None`
and `[]` filter lists impose no further constraint. -/
def passesHistoryFilters (r : HRecord) (filters : Option (List QFilter)) : Bool :=
  r.deletedAt.isNone &&
    match filters with
    | none => true
    | some fs => fs.all (fun f => histClause r f)

/-- One clause of `_apply_bookmark_filters` (lines 60-70): `folder` substring,
and the date bounds against `added_at`. -/
def bookClause (r : BRecord) (f : QFilter) : Bool :=
  match f.field, f.value with
  | "folder", some (.str s) =>
      if s = "" then true
      else
        match r.folder with
        | some fo => containsCI fo s
        | none => false
  | "date_after", some (.date v) =>
      match r.addedAt with
      | some t => tsLe (parseDateBound v false) t
      | none => false
  | "date_before", some (.date v) =>
      match r.addedAt with
      | some t => tsLe t (parseDateBound v true)
      | none => false
  | _, _ => true

/-- Model: `_apply_bookmark_filters` (lines 55-71). -/
def passesBookmarkFilters (r : BRecord) (filters : Option (List QFilter)) : Bool :=
  r.deletedAt.isNone &&
    match filters with
    | none => true
    | some fs => fs.all (fun f => bookClause r f)

/-- Stable insertion of `a` into a sorted list: `a` goes before the first
element `b` with `le a b`. -/
def insertBy (le : α → α → Bool) (a : α) : List α → List α
  | [] => [a]
  | b :: bs => if le a b then a :: b :: bs else b :: insertBy le a bs

/-- Stable sort by the total boolean relation `le` (true on ties keeps the
earlier element first), modelling SQL `ORDER BY` and Python's stable `sort`. -/
def sortBy (le : α → α → Bool) : List α → List α
  | [] => []
  | a :: as => insertBy le a (sortBy le as)

/-- Model: `ORDER BY <time> DESC NULLS LAST` as a boolean "comes no later than". -/
def recencyLe (a b : Option Timestamp) : Bool :=
  match a, b with
  | some x, some y => tsLe y x
  | some _, none => true
  | none, some _ => false
  | none, none => true

/-- The Postgres fulltext oracle for one fixed query string: whether a row's
`search_tsv` matches `plainto_tsquery("simple", query)` and its
`ts_rank_cd` value. -/
structure FtOracle (α : Type) where
  hit : α → Bool
  rank : α → ℚ

/-- The embedding side of one search call: the query vector returned by
`embedder.encode_sync(query)` and the pgvector cosine distance of a row's
embedding to it. -/
structure VecOracle (α : Type) where
  queryEmb : List ℚ
  dist : α → ℚ

/-- Model: `HybridHistorySearchEngine._structured` (lines 194-203): non-deleted rows
passing the filters, ordered by `last_visit_time DESC NULLS LAST`, limited,
with rank-decayed score `max(0.3, 1.0 - i*0.03)`. -/
def structuredH (store : List HRecord) (filters : Option (List QFilter))
    (limit : Nat) : List (HRecord × ℚ) :=
  let rows := (sortBy (fun a b => recencyLe a.lastVisitTime b.lastVisitTime)
      (store.filter (fun r => passesHistoryFilters r filters))).take limit
  rows.enum.map (fun p => (p.2, max (3/10 : ℚ) (1 - (p.1 : ℚ) * (3/100))))

/-- Ordering of `_fulltext`: `rank DESC`, then `last_visit_time DESC NULLS LAST`. -/
def ftOrderH (ft : FtOracle HRecord) (a b : HRecord) : Bool :=
  if ft.rank a ≠ ft.rank b then decide (ft.rank b < ft.rank a)
  else recencyLe a.lastVisitTime b.lastVisitTime

/-- Model: `HybridHistorySearchEngine._fulltext` (lines 205-218): rows passing the
filters with a non-null `search_tsv` matching the tsquery, ordered by rank
then recency, limited, score = rank clamped to `[0.1, 1.0]`. -/
def fulltextH (store : List HRecord) (_query : String)
    (filters : Option (List QFilter)) (limit : Nat) (ft : FtOracle HRecord) :
    List (HRecord × ℚ) :=
  let rows := (sortBy (ftOrderH ft)
      (store.filter (fun r =>
        passesHistoryFilters r filters && r.searchTsv.isSome && ft.hit r))).take limit
  rows.map (fun r => (r, min 1 (max (1/10) (ft.rank r))))

/-- Ordering of `_vector`: cosine distance ascending, then recency. -/
def vecOrderH (vo : VecOracle HRecord) (a b : HRecord) : Bool :=
  if vo.dist a ≠ vo.dist b then decide (vo.dist a < vo.dist b)
  else recencyLe a.lastVisitTime b.lastVisitTime

/-- Model: `HybridHistorySearchEngine._vector` (lines 220-234): if the query
embedding is empty or all-zero, no candidates; otherwise rows passing the
filters with a non-null embedding, ordered by cosine distance ascending then
recency, limited, score = `clamp(1 - distance, 0, 1)`. -/
def vectorH (store : List HRecord) (filters : Option (List QFilter))
    (limit : Nat) (vo : VecOracle HRecord) : List (HRecord × ℚ) :=
  if vo.queryEmb.isEmpty || vo.queryEmb.all (fun x => x == 0) then []
  else
    let rows := (sortBy (vecOrderH vo)
        (store.filter (fun r =>
          passesHistoryFilters r filters && r.embedding.isSome))).take limit
    rows.map (fun r => (r, max 0 (min 1 (1 - vo.dist r))))

/-- Model: `HybridHistorySearchEngine.count` (lines 244-257): number of rows passing
the structured filters (soft-deleted always excluded). -/
def countH (store : List HRecord) (filters : Option (List QFilter)) : Nat :=
  (store.filter (fun r => passesHistoryFilters r filters)).length

/-- Model: `HybridHistorySearchEngine.aggregate` (lines 259-297): empty for any
group-by field other than `"domain"`; otherwise group the rows with a
non-null, non-empty domain passing the filters by domain, count per group
(groups in first-occurrence order), order by count descending, take `top_n`. -/
def aggregateH (store : List HRecord) (groupBy : String)
    (filters : Option (List QFilter)) (topN : Nat) : List (String × Nat) :=
  if groupBy ≠ "domain" then []
  else
    let base := store.filter (fun r =>
      r.domain.isSome && r.domain ≠ some "" && passesHistoryFilters r filters)
    let keys := base.foldl (fun acc r =>
      let d := r.domain.getD ""
      if d ∈ acc then acc else acc ++ [d]) []
    let counts := keys.map (fun d => (d, base.countP (fun r => r.domain == some d)))
    (sortBy (fun a b => b.2 ≤ a.2) counts).take topN

/-- Model: `HybridBookmarkSearchEngine._structured` (lines 371-378), ordered by
`added_at DESC NULLS LAST`. -/
def structuredB (store : List BRecord) (filters : Option (List QFilter))
    (limit : Nat) : List (BRecord × ℚ) :=
  let rows := (sortBy (fun a b => recencyLe a.addedAt b.addedAt)
      (store.filter (fun r => passesBookmarkFilters r filters))).take limit
  rows.enum.map (fun p => (p.2, max (3/10 : ℚ) (1 - (p.1 : ℚ) * (3/100))))

/-- Ordering of the bookmark `_fulltext`: rank descending, then `added_at`. -/
def ftOrderB (ft : FtOracle BRecord) (a b : BRecord) : Bool :=
  if ft.rank a ≠ ft.rank b then decide (ft.rank b < ft.rank a)
  else recencyLe a.addedAt b.addedAt

/-- Model: `HybridBookmarkSearchEngine._fulltext` (lines 380-393). -/
def fulltextB (store : List BRecord) (_query : String)
    (filters : Option (List QFilter)) (limit : Nat) (ft : FtOracle BRecord) :
    List (BRecord × ℚ) :=
  let rows := (sortBy (ftOrderB ft)
      (store.filter (fun r =>
        passesBookmarkFilters r filters && r.searchTsv.isSome && ft.hit r))).take limit
  rows.map (fun r => (r, min 1 (max (1/10) (ft.rank r))))

/-- Ordering of the bookmark `_vector`: distance ascending, then `added_at`. -/
def vecOrderB (vo : VecOracle BRecord) (a b : BRecord) : Bool :=
  if vo.dist a ≠ vo.dist b then decide (vo.dist a < vo.dist b)
  else recencyLe a.addedAt b.addedAt

/-- Model: `HybridBookmarkSearchEngine._vector` (lines 395-407). -/
def vectorB (store : List BRecord) (filters : Option (List QFilter))
    (limit : Nat) (vo : VecOracle BRecord) : List (BRecord × ℚ) :=
  if vo.queryEmb.isEmpty || vo.queryEmb.all (fun x => x == 0) then []
  else
    let rows := (sortBy (vecOrderB vo)
        (store.filter (fun r =>
          passesBookmarkFilters r filters && r.embedding.isSome))).take limit
    rows.map (fun r => (r, max 0 (min 1 (1 - vo.dist r))))

/-- Model: `HybridBookmarkSearchEngine.count` (lines 417-430). -/
def countB (store : List BRecord) (filters : Option (List QFilter)) : Nat :=
  (store.filter (fun r => passesBookmarkFilters r filters)).length

/-- Model: `HybridBookmarkSearchEngine.aggregate` (lines 432-466): only the
`"folder"` group-by field is recognized. -/
def aggregateB (store : List BRecord) (groupBy : String)
    (filters : Option (List QFilter)) (topN : Nat) : List (String × Nat) :=
  if groupBy ≠ "folder" then []
  else
    let base := store.filter (fun r =>
      r.folder.isSome && r.folder ≠ some "" && passesBookmarkFilters r filters)
    let keys := base.foldl (fun acc r =>
      let f := r.folder.getD ""
      if f ∈ acc then acc else acc ++ [f]) []
    let counts := keys.map (fun f => (f, base.countP (fun r => r.folder == some f)))
    (sortBy (fun a b => b.2 ≤ a.2) counts).take topN

/-- Python `str.strip()`: remove leading and trailing whitespace. -/
def pyStrip (s : String) : String :=
  ⟨((s.data.dropWhile Char.isWhitespace).reverse.dropWhile
      Char.isWhitespace).reverse⟩

/-- Model: `methods = methods or ["structured", "fulltext", "vector"]` (line 137):
`None` and the empty list are both falsy and yield the full default. -/
def requestedMethods (methods : Option (List Method)) : List Method :=
  match methods with
  | none => [Method.structured, Method.fulltext, Method.vector]
  | some [] => [Method.structured, Method.fulltext, Method.vector]
  | some ms => ms

/-- The sub-queries a `search` call attempts (the guards of lines 155, 162,
169): `structured` whenever requested; `fulltext` and `vector` when requested
and the query is non-empty after stripping (Python `query and query.strip()`
is equivalent to `query.strip() != ""`).  The `filters` argument plays no
role in these guards. -/
def attemptedMethods (methods : Option (List Method)) (query : String)
    (_filters : Option (List QFilter)) : List Method :=
  let ms := requestedMethods methods
  (if Method.structured ∈ ms then [Method.structured] else []) ++
    (if Method.fulltext ∈ ms ∧ pyStrip query ≠ "" then [Method.fulltext] else []) ++
    (if Method.vector ∈ ms ∧ pyStrip query ≠ "" then [Method.vector] else [])

/-- One merged entry of `all_results`: the row, its per-method score map and
its contributing-methods list in first-seen order. -/
structure ResEntry (α : Type) where
  item : α
  scores : List (Method × ℚ)
  methodsList : List Method
deriving DecidableEq

/-- Model: `all_results[item_id]["scores"][method_name] = score`: dict update,
overwriting in place or appending a new key at the end. -/
def setScore (scores : List (Method × ℚ)) (m : Method) (v : ℚ) :
    List (Method × ℚ) :=
  if scores.any (fun p => p.1 == m) then
    scores.map (fun p => if p.1 == m then (m, v) else p)
  else scores ++ [(m, v)]

/-- The body of `add_batch`'s `for item, score in batch` loop (lines 146-152)
for one candidate: merge it into the insertion-ordered `all_results` dict,
keyed by item id. -/
def addOne (getId : α → Nat) (m : Method) (acc : List (Nat × ResEntry α))
    (iv : α × ℚ) : List (Nat × ResEntry α) :=
  let i := getId iv.1
  if acc.any (fun p => p.1 == i) then
    acc.map (fun p =>
      if p.1 == i then
        (i, { item := p.2.item,
              scores := setScore p.2.scores m iv.2,
              methodsList :=
                if m ∈ p.2.methodsList then p.2.methodsList
                else p.2.methodsList ++ [m] })
      else p)
  else acc ++ [(i, ⟨iv.1, [(m, iv.2)], [m]⟩)]

/-- The mutable state of one `search` call: the `all_results` dict (insertion
ordered) and the `methods_executed` list. -/
structure AccState (α : Type) where
  entries : List (Nat × ResEntry α)
  executed : List Method

/-- Model: `add_batch` (lines 142-152): an empty batch contributes nothing — not
even the method name; otherwise the method name is recorded as executed and
every candidate merged. -/
def addBatch (getId : α → Nat) (st : AccState α) (batch : List (α × ℚ))
    (m : Method) : AccState α :=
  if batch.isEmpty then st
  else { entries := batch.foldl (fun acc iv => addOne getId m acc iv) st.entries,
         executed := st.executed ++ [m] }

/-- What a `search` call returns (wall-clock timings aside): the formatted
result list (each row with its score map and contributing methods) and
`methods_executed`. -/
structure SearchOut (α : Type) where
  results : List (ResEntry α)
  methodsExecuted : List Method
deriving DecidableEq

/-- Model: `HybridHistorySearchEngine.search` (lines 130-189): run the guarded
sub-queries with limit `top_k * 2`, merge via `add_batch`, fuse each entry
with `engineFusedScore` (max of its scores), sort by fused score descending
(stable) and truncate to `top_k`. -/
def searchH (store : List HRecord) (query : String)
    (methods : Option (List Method)) (filters : Option (List QFilter))
    (topK : Nat) (ft : FtOracle HRecord) (vo : VecOracle HRecord) :
    SearchOut HRecord :=
  let ms := attemptedMethods methods query filters
  let st0 : AccState HRecord := ⟨[], []⟩
  let st1 := if Method.structured ∈ ms then
      addBatch HRecord.id st0 (structuredH store filters (topK * 2))
        Method.structured
    else st0
  let st2 := if Method.fulltext ∈ ms then
      addBatch HRecord.id st1 (fulltextH store query filters (topK * 2) ft)
        Method.fulltext
    else st1
  let st3 := if Method.vector ∈ ms then
      addBatch HRecord.id st2 (vectorH store filters (topK * 2) vo)
        Method.vector
    else st2
  let fusion := st3.entries.map (fun p => (p.2, engineFusedScore p.2.scores))
  let sorted := sortBy (fun a b => decide (b.2 ≤ a.2)) fusion
  ⟨(sorted.take topK).map (fun p => p.1), st3.executed⟩

/-- Model: `HybridBookmarkSearchEngine.search` (lines 307-366), same control flow. -/
def searchB (store : List BRecord) (query : String)
    (methods : Option (List Method)) (filters : Option (List QFilter))
    (topK : Nat) (ft : FtOracle BRecord) (vo : VecOracle BRecord) :
    SearchOut BRecord :=
  let ms := attemptedMethods methods query filters
  let st0 : AccState BRecord := ⟨[], []⟩
  let st1 := if Method.structured ∈ ms then
      addBatch BRecord.id st0 (structuredB store filters (topK * 2))
        Method.structured
    else st0
  let st2 := if Method.fulltext ∈ ms then
      addBatch BRecord.id st1 (fulltextB store query filters (topK * 2) ft)
        Method.fulltext
    else st1
  let st3 := if Method.vector ∈ ms then
      addBatch BRecord.id st2 (vectorB store filters (topK * 2) vo)
        Method.vector
    else st2
  let fusion := st3.entries.map (fun p => (p.2, engineFusedScore p.2.scores))
  let sorted := sortBy (fun a b => decide (b.2 ≤ a.2)) fusion
  ⟨(sorted.take topK).map (fun p => p.1), st3.executed⟩

/-- Model: `sync.py` line 12: the fixed ingest source tag. -/
def BROWSER : String := "vivaldi"

/-- Model: `_url_digest` (lines 21-22): `sha256(url)`.  Modelled as an abstract
injective content hash: the code only compares digests for equality and
relies on digest equality coinciding with byte-equality of the URL, so the
model uses the identity function on strings. -/
def urlDigest (url : String) : String := url

/-- Python `x or None` on an optional string: `None` and `""` collapse to
`None`. -/
def orNone : Option String → Option String
  | some "" => none
  | some s => some s
  | none => none

/-- Model: `_text_for_embedding` (lines 16-18): join the non-empty parts of
`[title, url, extra]` with spaces; fall back to the URL when that strips to
nothing. -/
def textForEmbedding (title : Option String) (url : String) (extra : String) :
    String :=
  let parts := [title.getD "", url, extra]
  let joined := " ".intercalate (parts.filter (fun p => p ≠ ""))
  if pyStrip joined = "" then url else pyStrip joined

/-- One raw history record from the Vivaldi reader (`upsert_history`'s `rows`
dicts: `url`, optional `title` and `domain`, optional `last_visit_time`,
`visit_count` defaulting to 0). -/
structure RawHistory where
  url : String
  title : Option String
  domain : Option String
  lastVisitTime : Option Timestamp
  visitCount : Nat
deriving DecidableEq, Repr

/-- One raw bookmark record (`upsert_bookmarks`'s `rows` dicts). -/
structure RawBookmark where
  url : String
  title : Option String
  folder : Option String
  addedAt : Option Timestamp
deriving DecidableEq, Repr

/-- The lookup predicate of `upsert_history` (lines 29-34): same URL digest
and `browser == "vivaldi"`. -/
def matchesH (r : RawHistory) (x : HRecord) : Bool :=
  urlDigest x.url == urlDigest r.url && x.browser == some BROWSER

/-- The `existing` branch of `upsert_history` (lines 35-40): refresh the
mutable fields and bump `updated_at`; identity fields untouched. -/
def updateRowH (x : HRecord) (r : RawHistory) (t : Nat) : HRecord :=
  { x with title := r.title, domain := orNone r.domain,
           lastVisitTime := r.lastVisitTime, visitCount := r.visitCount,
           updatedAt := t }

/-- Update the one row `select(...).scalar_one_or_none()` finds (the store's
unique constraint on `(digest(url), browser)` guarantees at most one match;
the model updates the first). -/
def updateFirstH : List HRecord → RawHistory → Nat → List HRecord
  | [], _, _ => []
  | x :: xs, r, t =>
      if matchesH r x then updateRowH x r t :: xs
      else x :: updateFirstH xs r t

/-- The `db.add(HistoryEntry(...))` branch (lines 41-52): a fresh row with
the ingest browser tag, no snippet, no embedding, server-set timestamps. -/
def newRowH (r : RawHistory) (i t : Nat) : HRecord :=
  { id := i, url := r.url, title := r.title, snippet := none,
    domain := orNone r.domain, lastVisitTime := r.lastVisitTime,
    visitCount := r.visitCount, browser := some BROWSER, embedding := none,
    embeddingComputedAt := none, searchTsv := none, createdAt := t,
    updatedAt := t, deletedAt := none }

/-- One iteration of `upsert_history`'s `for r in rows` loop: update the
existing row by identity key, or insert a new row with the next id. -/
def stepH (st : List HRecord × Nat) (r : RawHistory) (t : Nat) :
    List HRecord × Nat :=
  if st.1.any (fun x => matchesH r x) then (updateFirstH st.1 r t, st.2)
  else (st.1 ++ [newRowH r st.2 t], st.2 + 1)

/-- The result of one upsert call: the store, the next autoincrement id, and
the returned processed count. -/
structure UpsertOut (α : Type) where
  store : List α
  nextId : Nat
  processed : Nat
deriving DecidableEq

/-- Model: `upsert_history` (lines 25-54): fold the per-row upsert over the batch;
returns `len(rows)`. -/
def upsertHistory (store : List HRecord) (nid : Nat) (rows : List RawHistory)
    (t : Nat) : UpsertOut HRecord :=
  let fin := rows.foldl (fun st r => stepH st r t) (store, nid)
  ⟨fin.1, fin.2, rows.length⟩

/-- The lookup predicate of `upsert_bookmarks` (lines 60-70): same URL
digest, `browser == "vivaldi"`, and the folder (after `or None`) matched
with `IS NULL` when absent and equality otherwise. -/
def matchesB (r : RawBookmark) (x : BRecord) : Bool :=
  urlDigest x.url == urlDigest r.url && x.browser == some BROWSER &&
    match orNone r.folder with
    | none => x.folder.isNone
    | some f => x.folder == some f

/-- The `existing` branch of `upsert_bookmarks` (lines 71-74): refresh
`title` and `added_at`, bump `updated_at`. -/
def updateRowB (x : BRecord) (r : RawBookmark) (t : Nat) : BRecord :=
  { x with title := r.title, addedAt := r.addedAt, updatedAt := t }

/-- Update the first (by uniqueness, only) matching bookmark row. -/
def updateFirstB : List BRecord → RawBookmark → Nat → List BRecord
  | [], _, _ => []
  | x :: xs, r, t =>
      if matchesB r x then updateRowB x r t :: xs
      else x :: updateFirstB xs r t

/-- The `db.add(Bookmark(...))` branch (lines 75-85). -/
def newRowB (r : RawBookmark) (i t : Nat) : BRecord :=
  { id := i, url := r.url, title := r.title, snippet := none,
    folder := orNone r.folder, addedAt := r.addedAt, browser := some BROWSER,
    embedding := none, embeddingComputedAt := none, searchTsv := none,
    createdAt := t, updatedAt := t, deletedAt := none }

/-- One iteration of `upsert_bookmarks`'s loop. -/
def stepB (st : List BRecord × Nat) (r : RawBookmark) (t : Nat) :
    List BRecord × Nat :=
  if st.1.any (fun x => matchesB r x) then (updateFirstB st.1 r t, st.2)
  else (st.1 ++ [newRowB r st.2 t], st.2 + 1)

/-- Model: `upsert_bookmarks` (lines 57-87); returns `len(rows)`. -/
def upsertBookmarks (store : List BRecord) (nid : Nat)
    (rows : List RawBookmark) (t : Nat) : UpsertOut BRecord :=
  let fin := rows.foldl (fun st r => stepB st r t) (store, nid)
  ⟨fin.1, fin.2, rows.length⟩

/-- Model: `core/models.py` line 10: `EMBEDDING_DIM = 768`. -/
def EMBEDDING_DIM : Nat := 768

/-- The backfill selection predicate of `embed_history_batch` (lines 92-98):
`browser == "vivaldi"`, no embedding yet, not soft-deleted. -/
def histSel (r : HRecord) : Bool :=
  r.browser == some BROWSER && r.embedding.isNone && r.deletedAt.isNone

/-- The rows one history backfill batch selects: the matching rows, limited
to `batch_size`. -/
def selectHistoryBatch (store : List HRecord) (bs : Nat) : List HRecord :=
  (store.filter histSel).take bs

/-- Lines 112-114: accept a vector by setting `embedding` together with a
fresh `embedding_computed_at`. -/
def updEmbH (r : HRecord) (v : List ℚ) (now : Nat) : HRecord :=
  { r with embedding := some v, embeddingComputedAt := some now }

/-- The write-back loop of `embed_history_batch` (lines 111-114): walk the
store; each selected row (up to the batch budget `rem`) consumes the next
returned vector and keeps it only if it has exactly `EMBEDDING_DIM`
components; every other row is untouched.  This is the positional rendering
of `for e, vec in zip(entries, vectors)` mutating the selected ORM rows. -/
def applyVectorsH : List HRecord → List (List ℚ) → Nat → Nat → List HRecord
  | [], _, _, _ => []
  | r :: rest, [], rem, now =>
      if 0 < rem && histSel r then r :: rest
      else r :: applyVectorsH rest [] rem now
  | r :: rest, v :: vs, rem, now =>
      if 0 < rem && histSel r then
        (if v.length = EMBEDDING_DIM then updEmbH r v now else r) ::
          applyVectorsH rest vs (rem - 1) now
      else r :: applyVectorsH rest (v :: vs) rem now

/-- Model: `embed_history_batch` (lines 90-116).  `resp` is the outcome of the one
`embedder.encode_sync(texts)` call: `none` models a raised exception or a
non-list response; `some vecs` a returned list.  An empty selection, a failed
call, or a length mismatch leave the store untouched and return 0; otherwise
the vectors are written back per-row (wrong-length vectors rejected) and the
function returns `len(entries)` — the number of selected rows. -/
def embedHistoryBatch (store : List HRecord) (resp : Option (List (List ℚ)))
    (now bs : Nat) : List HRecord × Nat :=
  let entries := selectHistoryBatch store bs
  if entries.isEmpty then (store, 0)
  else
    match resp with
    | none => (store, 0)
    | some vecs =>
        if vecs.length ≠ entries.length then (store, 0)
        else (applyVectorsH store vecs bs now, entries.length)

/-- The backfill selection predicate of `embed_bookmarks_batch`
(lines 137-143). -/
def bookSel (r : BRecord) : Bool :=
  r.browser == some BROWSER && r.embedding.isNone && r.deletedAt.isNone

/-- The rows one bookmark backfill batch selects. -/
def selectBookmarkBatch (store : List BRecord) (bs : Nat) : List BRecord :=
  (store.filter bookSel).take bs

/-- Lines 157-159 for bookmarks. -/
def updEmbB (r : BRecord) (v : List ℚ) (now : Nat) : BRecord :=
  { r with embedding := some v, embeddingComputedAt := some now }

/-- The write-back loop of `embed_bookmarks_batch` (lines 156-159). -/
def applyVectorsB : List BRecord → List (List ℚ) → Nat → Nat → List BRecord
  | [], _, _, _ => []
  | r :: rest, [], rem, now =>
      if 0 < rem && bookSel r then r :: rest
      else r :: applyVectorsB rest [] rem now
  | r :: rest, v :: vs, rem, now =>
      if 0 < rem && bookSel r then
        (if v.length = EMBEDDING_DIM then updEmbB r v now else r) ::
          applyVectorsB rest vs (rem - 1) now
      else r :: applyVectorsB rest (v :: vs) rem now

/-- Model: `embed_bookmarks_batch` (lines 135-161). -/
def embedBookmarksBatch (store : List BRecord) (resp : Option (List (List ℚ)))
    (now bs : Nat) : List BRecord × Nat :=
  let entries := selectBookmarkBatch store bs
  if entries.isEmpty then (store, 0)
  else
    match resp with
    | none => (store, 0)
    | some vecs =>
        if vecs.length ≠ entries.length then (store, 0)
        else (applyVectorsB store vecs bs now, entries.length)

/-- The history half of `run_embedding_backfill` (lines 122-126): iterate
batches until one returns 0, summing the returned counts.  `resps` is the
sequence of embedding-service outcomes, one per batch; the Python `while`
loop runs unboundedly, so the model stops (with what has accumulated) when
the provided outcome sequence is exhausted. -/
def runHistoryBackfill (store : List HRecord)
    (resps : List (Option (List (List ℚ)))) (now bs : Nat) :
    List HRecord × Nat :=
  match resps with
  | [] => (store, 0)
  | resp :: rest =>
      let out := embedHistoryBatch store resp now bs
      if out.2 = 0 then (out.1, 0)
      else
        let more := runHistoryBackfill out.1 rest now bs
        (more.1, out.2 + more.2)

/-- The bookmark half of `run_embedding_backfill` (lines 127-131). -/
def runBookmarkBackfill (store : List BRecord)
    (resps : List (Option (List (List ℚ)))) (now bs : Nat) :
    List BRecord × Nat :=
  match resps with
  | [] => (store, 0)
  | resp :: rest =>
      let out := embedBookmarksBatch store resp now bs
      if out.2 = 0 then (out.1, 0)
      else
        let more := runBookmarkBackfill out.1 rest now bs
        (more.1, out.2 + more.2)

/-- Model: `run_embedding_backfill` (lines 119-132): drain history then bookmarks,
returning `(history_count, bookmark_count)`. -/
def runEmbeddingBackfill (hstore : List HRecord) (bstore : List BRecord)
    (hresps bresps : List (Option (List (List ℚ)))) (now bs : Nat) :
    (List HRecord × List BRecord) × (Nat × Nat) :=
  let h := runHistoryBackfill hstore hresps now bs
  let b := runBookmarkBackfill bstore bresps now bs
  ((h.1, b.1), (h.2, b.2))

/-- The embedding-dimensionality invariant of the spec: every non-null
embedding in the history store has exactly `EMBEDDING_DIM` components. -/
def wfH (store : List HRecord) : Prop :=
  ∀ r ∈ store, ∀ v, r.embedding = some v → v.length = EMBEDDING_DIM

/-- The same invariant for the bookmark store. -/
def wfB (store : List BRecord) : Prop :=
  ∀ r ∈ store, ∀ v, r.embedding = some v → v.length = EMBEDDING_DIM

/-- Number of history rows that have an embedding. -/
def countEmbH (store : List HRecord) : Nat :=
  store.countP (fun r => r.embedding.isSome)

/-- Number of bookmark rows that have an embedding. -/
def countEmbB (store : List BRecord) : Nat :=
  store.countP (fun r => r.embedding.isSome)

/-- A vivaldi history row with no embedding, used as a concrete store row. -/
def exHistRec : HRecord :=
  ⟨1, "https://a.example", none, none, none, none, 0, some "vivaldi", none,
    none, none, 0, 0, none⟩

/-- A history row whose browser tag is not `"vivaldi"`. -/
def exHistOther : HRecord :=
  ⟨7, "https://o.example", none, none, none, none, 0, some "chrome", none,
    none, none, 0, 0, none⟩

/-- A vivaldi bookmark row with no embedding. -/
def exBookRec : BRecord :=
  ⟨2, "https://b.example", none, none, none, none, some "vivaldi", none,
    none, none, 0, 0, none⟩

/-- A bookmark row whose browser tag is not `"vivaldi"`. -/
def exBookOther : BRecord :=
  ⟨8, "https://p.example", none, none, none, none, some "chrome", none,
    none, none, 0, 0, none⟩

/-- A fulltext oracle that matches nothing (the tsquery hits no row). -/
def ftZeroH : FtOracle HRecord := ⟨fun _ => false, fun _ => 0⟩

/-- A vector oracle with an empty query embedding (unset embedding backend). -/
def vtZeroH : VecOracle HRecord := ⟨[], fun _ => 0⟩

/-- A concrete history record last visited on 2026-02-10. -/
def c8rec : HRecord :=
  { exHistRec with lastVisitTime := some ⟨2026, 2, 10, 12, 30, 0, 0⟩ }

/-- Erase the mutable fields (`title`, `domain`, `last_visit_time`,
`visit_count`) and `updated_at` of a history row, keeping identity
(`id`, `url`, `browser`), `created_at` and all other fields. -/
def stripMutH (x : HRecord) : HRecord :=
  { x with title := none, domain := none, lastVisitTime := none,
           visitCount := 0, updatedAt := 0 }

/-- Erase the mutable fields (`title`, `added_at`) and `updated_at` of a
bookmark row. -/
def stripMutB (x : BRecord) : BRecord :=
  { x with title := none, addedAt := none, updatedAt := 0 }

/-- C1 counterexample.  The score map `{structured: 0.3, fulltext: 1.0}` is
attainable (0.3 is the structured rank-decay floor, 1.0 the fulltext clamp
ceiling).  On it the per-kind engine's fused score
(`max(res["scores"].values())`, line 179) is 1 while the cross-kind merge's
`_fused_score` (tools.py lines 158-164) is 23/37, so no single policy —
weighted-average or max-of-scores — is applied both by the per-kind engine
and by the cross-kind merge. -/
theorem C1_counterexample :
    ¬ ((∀ s : List (Method × ℚ), s ≠ [] →
          engineFusedScore s = specWeightedAvg s ∧
          mergeFusedScore s = specWeightedAvg s) ∨
        (∀ s : List (Method × ℚ), s ≠ [] →
          engineFusedScore s = specMaxScore s ∧
          mergeFusedScore s = specMaxScore s)) := by
  have e1 : engineFusedScore [(Method.structured, 3/10), (Method.fulltext, 1)]
      = 1 := by
    simp [engineFusedScore, max_def]; norm_num
  have e2 : mergeFusedScore [(Method.structured, 3/10), (Method.fulltext, 1)]
      = 23/37 := by
    simp [mergeFusedScore, methodWeight]; norm_num
  have e3 : specWeightedAvg [(Method.structured, 3/10), (Method.fulltext, 1)]
      = 23/37 := by
    simp [specWeightedAvg, methodWeight]; norm_num
  have e4 : specMaxScore [(Method.structured, 3/10), (Method.fulltext, 1)]
      = 1 := by
    simp [specMaxScore, max_def]; norm_num
  rintro (h | h)
  · have hc := (h [(Method.structured, 3/10), (Method.fulltext, 1)]
      (by simp)).1
    rw [e1, e3] at hc
    norm_num at hc
  · have hc := (h [(Method.structured, 3/10), (Method.fulltext, 1)]
      (by simp)).2
    rw [e2, e4] at hc
    norm_num at hc

/-- C1 (amended): the code uses two distinct fixed deterministic policies —
the per-kind engine's final ranking score is max-of-scores over the
contributing methods, while the cross-kind merge's ranking score is the
weighted average with weights {structured: 1.0, fulltext: 0.85, vector: 0.7}
over the contributing methods only. -/
theorem C1_two_policies (s : List (Method × ℚ)) (h : s ≠ []) :
    engineFusedScore s = specMaxScore s ∧
    mergeFusedScore s = specWeightedAvg s := by
  constructor
  · cases s <;> rfl
  · have hpos : 0 < (s.map (fun p => methodWeight p.1)).sum := by
      apply List.sum_pos
      · intro x hx
        obtain ⟨p, _, rfl⟩ := List.mem_map.mp hx
        cases p.1 <;> simp [methodWeight]
      · simp [h]
    have hne : ¬(s.isEmpty = true) := by simp [h]
    simp only [mergeFusedScore, specWeightedAvg]
    rw [if_neg hne, if_pos hpos]

/-- Witness for C1 (amended) at the singleton score map `{structured: 1.0}`. -/
theorem C1_two_policies_w :
    engineFusedScore [(Method.structured, 1)]
        = specMaxScore [(Method.structured, 1)] ∧
    mergeFusedScore [(Method.structured, 1)]
        = specWeightedAvg [(Method.structured, 1)] :=
  C1_two_policies [(Method.structured, 1)] (by simp)

/-- C2 counterexample: with `methods` unset, `search(query="x", filters=[])`
does run the structured method — it appears in `methods_executed` of a search
over a one-row store (the row surfacing through the structured sub-query
despite the empty filter list), and the set of attempted sub-queries is not
`{fulltext, vector}`. -/
theorem C2_counterexample :
    Method.structured ∈
      (searchH [exHistRec] "x" none (some []) 10 ftZeroH vtZeroH).methodsExecuted ∧
    attemptedMethods none "x" (some []) ≠ [Method.fulltext, Method.vector] := by
  decide

/-- C2 (amended): when `methods` is unset, all three methods are requested
(`methods or [...]`), so the sub-queries attempted are `structured`
unconditionally — regardless of the filter list — plus `fulltext` and
`vector` iff the query is non-empty after stripping. -/
theorem C2_auto_selection (query : String) (filters : Option (List QFilter)) :
    attemptedMethods none query filters =
      [Method.structured] ++
        (if pyStrip query ≠ "" then [Method.fulltext, Method.vector]
         else []) := by
  by_cases h : pyStrip query = "" <;>
    simp [attemptedMethods, requestedMethods, h]

/-- The model of `add_batch` records a method as executed exactly when its
batch is non-empty. -/
theorem addBatch_executed (getId : α → Nat) (st : AccState α)
    (batch : List (α × ℚ)) (m : Method) :
    (addBatch getId st batch m).executed =
      st.executed ++ if batch.isEmpty then [] else [m] := by
  by_cases hb : batch.isEmpty <;> simp [addBatch, hb]

/-- C9 counterexample: on an empty store with an empty query, the structured
sub-query is attempted (its preconditions hold — it needs neither query nor
filters) and executes, producing zero candidates, yet `methods_executed` is
empty rather than `["structured"]`. -/
theorem C9_counterexample :
    (searchH [] "" none none 10 ftZeroH vtZeroH).methodsExecuted = [] ∧
    attemptedMethods none "" none = [Method.structured] := by
  decide

/-- C9 (amended): `methods_executed` lists exactly the attempted methods
whose sub-query returned at least one candidate, in guard order; a method
that executed but produced zero candidates is omitted. -/
theorem C9_methods_executed (store : List HRecord) (query : String)
    (methods : Option (List Method)) (filters : Option (List QFilter))
    (topK : Nat) (ft : FtOracle HRecord) (vo : VecOracle HRecord) :
    (searchH store query methods filters topK ft vo).methodsExecuted =
      (if Method.structured ∈ attemptedMethods methods query filters ∧
          structuredH store filters (topK * 2) ≠ [] then [Method.structured]
       else []) ++
      (if Method.fulltext ∈ attemptedMethods methods query filters ∧
          fulltextH store query filters (topK * 2) ft ≠ [] then
        [Method.fulltext]
       else []) ++
      (if Method.vector ∈ attemptedMethods methods query filters ∧
          vectorH store filters (topK * 2) vo ≠ [] then [Method.vector]
       else []) := by
  by_cases h1 : Method.structured ∈ attemptedMethods methods query filters <;>
  by_cases h2 : Method.fulltext ∈ attemptedMethods methods query filters <;>
  by_cases h3 : Method.vector ∈ attemptedMethods methods query filters <;>
  by_cases e1 : structuredH store filters (topK * 2) = [] <;>
  by_cases e2 : fulltextH store query filters (topK * 2) ft = [] <;>
  by_cases e3 : vectorH store filters (topK * 2) vo = [] <;>
  simp [searchH, addBatch, h1, h2, h3, e1, e2, e3]

/-- C3: evaluation at the failing input.  One unembedded vivaldi history row
is selected; the embedding service returns one vector of the wrong length
(here `[]`, length 0 ≠ EMBEDDING_DIM), which is rejected and not persisted —
yet `embed_history_batch` returns `len(entries) = 1` although the number of
embedded rows did not change.  (Its own docstring says "Returns count
updated"; `run_embedding_backfill` then also loops on a batch that makes no
progress.) -/
theorem C3_failing_eval :
    (embedHistoryBatch [exHistRec] (some [[]]) 5 50).2 = 1 ∧
    countEmbH (embedHistoryBatch [exHistRec] (some [[]]) 5 50).1
      = countEmbH [exHistRec] ∧
    countEmbH [exHistRec] = 0 := by
  decide

/-- C4: backfill batch failure isolation.  If the one remote embedding call
raises, returns a non-list (both modelled by `resp = none`), or returns a
list whose length differs from the number of selected records, the batch
leaves the store exactly as it was — no embedding, no
`embedding_computed_at`, previously-embedded rows untouched — and returns
zero, for both item kinds. -/
theorem C4_batch_failure_isolation (hstore : List HRecord)
    (bstore : List BRecord) (hvecs bvecs : List (List ℚ)) (now bs : Nat)
    (hmis : hvecs.length ≠ (selectHistoryBatch hstore bs).length)
    (bmis : bvecs.length ≠ (selectBookmarkBatch bstore bs).length) :
    embedHistoryBatch hstore none now bs = (hstore, 0) ∧
    embedHistoryBatch hstore (some hvecs) now bs = (hstore, 0) ∧
    embedBookmarksBatch bstore none now bs = (bstore, 0) ∧
    embedBookmarksBatch bstore (some bvecs) now bs = (bstore, 0) := by
  refine ⟨?_, ?_, ?_, ?_⟩
  · simp only [embedHistoryBatch]
    split <;> rfl
  · simp only [embedHistoryBatch]
    split <;> simp [hmis]
  · simp only [embedBookmarksBatch]
    split <;> rfl
  · simp only [embedBookmarksBatch]
    split <;> simp [bmis]

/-- Witness for C4 at one-row stores and an empty (hence wrong-length)
response list. -/
theorem C4_batch_failure_isolation_w :
    embedHistoryBatch [exHistRec] none 3 50 = ([exHistRec], 0) ∧
    embedHistoryBatch [exHistRec] (some []) 3 50 = ([exHistRec], 0) ∧
    embedBookmarksBatch [exBookRec] none 3 50 = ([exBookRec], 0) ∧
    embedBookmarksBatch [exBookRec] (some []) 3 50 = ([exBookRec], 0) :=
  C4_batch_failure_isolation [exHistRec] [exBookRec] [] [] 3 50
    (by decide) (by decide)

/-- A row the backfill selection predicate rejects keeps its position and
value through the write-back loop. -/
theorem applyVectorsH_get_of_not_sel (store : List HRecord)
    (vecs : List (List ℚ)) (rem now i : Nat) (r : HRecord)
    (hget : store[i]? = some r) (hsel : histSel r = false) :
    (applyVectorsH store vecs rem now)[i]? = some r := by
  induction store generalizing vecs rem i with
  | nil => simp at hget
  | cons x t ih =>
      have hcond : ∀ m : Nat, (0 < m && histSel x) = true → ¬i = 0 := by
        intro m hm hi
        subst hi
        simp at hget
        subst hget
        simp [hsel] at hm
      cases vecs with
      | nil =>
          rw [applyVectorsH]
          by_cases hc : (0 < rem && histSel x) = true
          · rw [if_pos hc]
            exact hget
          · rw [if_neg hc]
            cases i with
            | zero => simpa using hget
            | succ n =>
                simp at hget
                simpa using ih [] rem n hget
      | cons v vs =>
          rw [applyVectorsH]
          by_cases hc : (0 < rem && histSel x) = true
          · rw [if_pos hc]
            cases i with
            | zero => exact absurd rfl (hcond rem hc)
            | succ n =>
                simp at hget
                simpa using ih vs (rem - 1) n hget
          · rw [if_neg hc]
            cases i with
            | zero => simpa using hget
            | succ n =>
                simp at hget
                simpa using ih (v :: vs) rem n hget

/-- Same for bookmark rows. -/
theorem applyVectorsB_get_of_not_sel (store : List BRecord)
    (vecs : List (List ℚ)) (rem now i : Nat) (r : BRecord)
    (hget : store[i]? = some r) (hsel : bookSel r = false) :
    (applyVectorsB store vecs rem now)[i]? = some r := by
  induction store generalizing vecs rem i with
  | nil => simp at hget
  | cons x t ih =>
      have hcond : ∀ m : Nat, (0 < m && bookSel x) = true → ¬i = 0 := by
        intro m hm hi
        subst hi
        simp at hget
        subst hget
        simp [hsel] at hm
      cases vecs with
      | nil =>
          rw [applyVectorsB]
          by_cases hc : (0 < rem && bookSel x) = true
          · rw [if_pos hc]
            exact hget
          · rw [if_neg hc]
            cases i with
            | zero => simpa using hget
            | succ n =>
                simp at hget
                simpa using ih [] rem n hget
      | cons v vs =>
          rw [applyVectorsB]
          by_cases hc : (0 < rem && bookSel x) = true
          · rw [if_pos hc]
            cases i with
            | zero => exact absurd rfl (hcond rem hc)
            | succ n =>
                simp at hget
                simpa using ih vs (rem - 1) n hget
          · rw [if_neg hc]
            cases i with
            | zero => simpa using hget
            | succ n =>
                simp at hget
                simpa using ih (v :: vs) rem n hget

/-- One history backfill batch leaves an unselected row in place. -/
theorem embedHistoryBatch_get_of_not_sel (store : List HRecord)
    (resp : Option (List (List ℚ))) (now bs i : Nat) (r : HRecord)
    (hget : store[i]? = some r) (hsel : histSel r = false) :
    (embedHistoryBatch store resp now bs).1[i]? = some r := by
  simp only [embedHistoryBatch]
  split
  · exact hget
  · split
    · exact hget
    · split
      · exact hget
      · exact applyVectorsH_get_of_not_sel store _ bs now i r hget hsel

/-- One bookmark backfill batch leaves an unselected row in place. -/
theorem embedBookmarksBatch_get_of_not_sel (store : List BRecord)
    (resp : Option (List (List ℚ))) (now bs i : Nat) (r : BRecord)
    (hget : store[i]? = some r) (hsel : bookSel r = false) :
    (embedBookmarksBatch store resp now bs).1[i]? = some r := by
  simp only [embedBookmarksBatch]
  split
  · exact hget
  · split
    · exact hget
    · split
      · exact hget
      · exact applyVectorsB_get_of_not_sel store _ bs now i r hget hsel

/-- The whole history backfill loop leaves an unselected row in place. -/
theorem runHistoryBackfill_get_of_not_sel (resps : List (Option (List (List ℚ))))
    (store : List HRecord) (now bs i : Nat) (r : HRecord)
    (hget : store[i]? = some r) (hsel : histSel r = false) :
    (runHistoryBackfill store resps now bs).1[i]? = some r := by
  induction resps generalizing store with
  | nil => exact hget
  | cons resp rest ih =>
      rw [runHistoryBackfill]
      have hstep := embedHistoryBatch_get_of_not_sel store resp now bs i r hget hsel
      split
      · exact hstep
      · exact ih (embedHistoryBatch store resp now bs).1 hstep

/-- The whole bookmark backfill loop leaves an unselected row in place. -/
theorem runBookmarkBackfill_get_of_not_sel (resps : List (Option (List (List ℚ))))
    (store : List BRecord) (now bs i : Nat) (r : BRecord)
    (hget : store[i]? = some r) (hsel : bookSel r = false) :
    (runBookmarkBackfill store resps now bs).1[i]? = some r := by
  induction resps generalizing store with
  | nil => exact hget
  | cons resp rest ih =>
      rw [runBookmarkBackfill]
      have hstep := embedBookmarksBatch_get_of_not_sel store resp now bs i r hget hsel
      split
      · exact hstep
      · exact ih (embedBookmarksBatch store resp now bs).1 hstep

/-- C10: the backfill batches only touch rows whose `browser` tag is
`"vivaldi"`.  A row with a different or missing tag is never selected into a
batch and is left entirely unchanged, at its position, by any number of
backfill iterations with any sequence of embedding-service outcomes — for
both item kinds. -/
theorem C10_backfill_frame (hstore : List HRecord) (bstore : List BRecord)
    (hresps bresps : List (Option (List (List ℚ)))) (now bs i j : Nat)
    (r : HRecord) (b : BRecord)
    (hget : hstore[i]? = some r) (hb : r.browser ≠ some BROWSER)
    (bget : bstore[j]? = some b) (bb : b.browser ≠ some BROWSER) :
    (runHistoryBackfill hstore hresps now bs).1[i]? = some r ∧
    r ∉ selectHistoryBatch hstore bs ∧
    (runBookmarkBackfill bstore bresps now bs).1[j]? = some b ∧
    b ∉ selectBookmarkBatch bstore bs := by
  have hsel : histSel r = false := by
    simp [histSel, hb]
  have bsel : bookSel b = false := by
    simp [bookSel, bb]
  refine ⟨runHistoryBackfill_get_of_not_sel hresps hstore now bs i r hget hsel,
    ?_, runBookmarkBackfill_get_of_not_sel bresps bstore now bs j b bget bsel,
    ?_⟩
  · intro hmem
    have hm := List.mem_filter.mp (List.mem_of_mem_take hmem)
    rw [hsel] at hm
    exact absurd hm.2 (by simp)
  · intro hmem
    have hm := List.mem_filter.mp (List.mem_of_mem_take hmem)
    rw [bsel] at hm
    exact absurd hm.2 (by simp)

/-- Witness for C10: a chrome-tagged history row and bookmark row survive a
backfill run untouched. -/
theorem C10_backfill_frame_w :
    (runHistoryBackfill [exHistOther] [some [[]]] 3 50).1[0]?
        = some exHistOther ∧
    exHistOther ∉ selectHistoryBatch [exHistOther] 50 ∧
    (runBookmarkBackfill [exBookOther] [some [[]]] 3 50).1[0]?
        = some exBookOther ∧
    exBookOther ∉ selectBookmarkBatch [exBookOther] 50 :=
  C10_backfill_frame [exHistOther] [exBookOther] [some [[]]] [some [[]]]
    3 50 0 0 exHistOther exBookOther (by decide) (by decide) (by decide)
    (by decide)

/-- Stable insertion produces a permutation of consing. -/
theorem insertBy_perm (le : α → α → Bool) (a : α) (l : List α) :
    (insertBy le a l).Perm (a :: l) := by
  induction l with
  | nil => exact List.Perm.refl _
  | cons b t ih =>
      rw [insertBy]
      by_cases h : le a b = true
      · rw [if_pos h]
      · rw [if_neg h]
        exact (ih.cons b).trans (List.Perm.swap a b t)

/-- The model sort is a permutation of its input. -/
theorem sortBy_perm (le : α → α → Bool) (l : List α) :
    (sortBy le l).Perm l := by
  induction l with
  | nil => exact List.Perm.refl _
  | cons a t ih =>
      exact (insertBy_perm le a (sortBy le t)).trans (ih.cons a)

/-- Sorting preserves `List.all`. -/
theorem all_sortBy (le : α → α → Bool) (l : List α) (p : α → Bool)
    (h : l.all p = true) : (sortBy le l).all p = true := by
  rw [List.all_eq_true] at h ⊢
  intro x hx
  exact h x ((sortBy_perm le l).mem_iff.mp hx)

/-- Taking a prefix preserves `List.all`. -/
theorem all_take (l : List α) (n : Nat) (p : α → Bool)
    (h : l.all p = true) : (l.take n).all p = true := by
  rw [List.all_eq_true] at h ⊢
  intro x hx
  exact h x (List.mem_of_mem_take hx)

/-- Filtering by a predicate that entails `p` yields a list that is all-`p`. -/
theorem all_filter_of_imp (l : List α) (q p : α → Bool)
    (h : ∀ a, q a = true → p a = true) : (l.filter q).all p = true := by
  rw [List.all_eq_true]
  intro x hx
  exact h x (List.mem_filter.mp hx).2

/-- Re-filtering by a stronger predicate is absorbed. -/
theorem filter_absorb (l : List α) (p q : α → Bool)
    (h : ∀ a, p a = true → q a = true) :
    (l.filter q).filter p = l.filter p := by
  induction l with
  | nil => rfl
  | cons a t ih =>
      by_cases hq : q a = true
      · simp [List.filter_cons, hq, ih]
      · have hp : p a = false := by
          cases hpa : p a
          · rfl
          · exact absurd (h a hpa) (by simp [hq])
        simp [List.filter_cons, hq, hp, ih]

/-- Records appearing in an enumerated, scored candidate list inherit an
all-property of the underlying row list. -/
theorem all_fst_enum_map (rows : List α) (g : Nat × α → ℚ) (p : α → Bool)
    (h : rows.all p = true) :
    (rows.enum.map (fun q => (q.2, g q))).all (fun q => p q.1) = true := by
  rw [List.all_eq_true] at h ⊢
  intro q hq
  obtain ⟨x, hx, rfl⟩ := List.mem_map.mp hq
  apply h
  have hmem : x.2 ∈ rows.enum.map Prod.snd := List.mem_map_of_mem Prod.snd hx
  rwa [List.enum_map_snd] at hmem

/-- Records appearing in a mapped, scored candidate list inherit an
all-property of the underlying row list. -/
theorem all_fst_map (rows : List α) (g : α → ℚ) (p : α → Bool)
    (h : rows.all p = true) :
    (rows.map (fun r => (r, g r))).all (fun q => p q.1) = true := by
  rw [List.all_eq_true] at h ⊢
  intro q hq
  obtain ⟨x, hx, rfl⟩ := List.mem_map.mp hq
  exact h x hx

/-- The history filter pipeline always entails the non-deleted predicate. -/
theorem passesHistoryFilters_isNone (filters : Option (List QFilter))
    (r : HRecord) (h : passesHistoryFilters r filters = true) :
    r.deletedAt.isNone = true := by
  simp only [passesHistoryFilters, Bool.and_eq_true] at h
  exact h.1

/-- The bookmark filter pipeline always entails the non-deleted predicate. -/
theorem passesBookmarkFilters_isNone (filters : Option (List QFilter))
    (r : BRecord) (h : passesBookmarkFilters r filters = true) :
    r.deletedAt.isNone = true := by
  simp only [passesBookmarkFilters, Bool.and_eq_true] at h
  exact h.1

/-- C7: soft-deleted records are invisible to every read of the retrieval
engines.  For both item kinds: every record surfaced by the structured,
fulltext and vector sub-queries is non-deleted, and the results of `count`
and `aggregate` are unchanged if all soft-deleted rows are erased from the
store first — soft-deleted rows contribute to no returned count. -/
theorem C7_soft_delete_excluded (hstore : List HRecord) (bstore : List BRecord)
    (filters : Option (List QFilter)) (limit topN : Nat) (q gb : String)
    (fth : FtOracle HRecord) (voh : VecOracle HRecord)
    (ftb : FtOracle BRecord) (vob : VecOracle BRecord) :
    (structuredH hstore filters limit).all
        (fun p => p.1.deletedAt.isNone) = true ∧
    (fulltextH hstore q filters limit fth).all
        (fun p => p.1.deletedAt.isNone) = true ∧
    (vectorH hstore filters limit voh).all
        (fun p => p.1.deletedAt.isNone) = true ∧
    countH (hstore.filter (fun r => r.deletedAt.isNone)) filters
        = countH hstore filters ∧
    aggregateH (hstore.filter (fun r => r.deletedAt.isNone)) gb filters topN
        = aggregateH hstore gb filters topN ∧
    (structuredB bstore filters limit).all
        (fun p => p.1.deletedAt.isNone) = true ∧
    (fulltextB bstore q filters limit ftb).all
        (fun p => p.1.deletedAt.isNone) = true ∧
    (vectorB bstore filters limit vob).all
        (fun p => p.1.deletedAt.isNone) = true ∧
    countB (bstore.filter (fun r => r.deletedAt.isNone)) filters
        = countB bstore filters ∧
    aggregateB (bstore.filter (fun r => r.deletedAt.isNone)) gb filters topN
        = aggregateB bstore gb filters topN := by
  refine ⟨?_, ?_, ?_, ?_, ?_, ?_, ?_, ?_, ?_, ?_⟩
  · exact all_fst_enum_map _ _ _ (all_take _ _ _ (all_sortBy _ _ _
      (all_filter_of_imp _ _ _ (passesHistoryFilters_isNone filters))))
  · simp only [fulltextH]
    refine all_fst_map _ (fun r => min 1 (max (1/10) (fth.rank r)))
      (fun r => r.deletedAt.isNone)
      (all_take _ _ _ (all_sortBy _ _ _
        (all_filter_of_imp _ _ _ (fun r hr => ?_))))
    simp only [Bool.and_eq_true] at hr
    exact passesHistoryFilters_isNone filters r hr.1.1
  · simp only [vectorH]
    split
    · rfl
    · refine all_fst_map _ (fun r => max 0 (min 1 (1 - voh.dist r)))
        (fun r => r.deletedAt.isNone)
        (all_take _ _ _ (all_sortBy _ _ _
          (all_filter_of_imp _ _ _ (fun r hr => ?_))))
      simp only [Bool.and_eq_true] at hr
      exact passesHistoryFilters_isNone filters r hr.1
  · rw [countH, countH,
      filter_absorb _ _ _ (passesHistoryFilters_isNone filters)]
  · rw [aggregateH, aggregateH]
    split
    · rfl
    · rw [filter_absorb _ _ _ (fun r hr => by
        simp only [Bool.and_eq_true] at hr
        exact passesHistoryFilters_isNone filters r hr.2)]
  · exact all_fst_enum_map _ _ _ (all_take _ _ _ (all_sortBy _ _ _
      (all_filter_of_imp _ _ _ (passesBookmarkFilters_isNone filters))))
  · simp only [fulltextB]
    refine all_fst_map _ (fun r => min 1 (max (1/10) (ftb.rank r)))
      (fun r => r.deletedAt.isNone)
      (all_take _ _ _ (all_sortBy _ _ _
        (all_filter_of_imp _ _ _ (fun r hr => ?_))))
    simp only [Bool.and_eq_true] at hr
    exact passesBookmarkFilters_isNone filters r hr.1.1
  · simp only [vectorB]
    split
    · rfl
    · refine all_fst_map _ (fun r => max 0 (min 1 (1 - vob.dist r)))
        (fun r => r.deletedAt.isNone)
        (all_take _ _ _ (all_sortBy _ _ _
          (all_filter_of_imp _ _ _ (fun r hr => ?_))))
      simp only [Bool.and_eq_true] at hr
      exact passesBookmarkFilters_isNone filters r hr.1
  · rw [countB, countB,
      filter_absorb _ _ _ (passesBookmarkFilters_isNone filters)]
  · rw [aggregateB, aggregateB]
    split
    · rfl
    · rw [filter_absorb _ _ _ (fun r hr => by
        simp only [Bool.and_eq_true] at hr
        exact passesBookmarkFilters_isNone filters r hr.2)]


/-- C8: date bounds are inclusive and a bare date means end of that day for
`date_before`, start of that day for `date_after`.  Any record whose
`last_visit_time` falls anywhere on 2026-02-10 passes
`date_before="2026-02-10"` (end-of-day inclusive) and fails
`date_before="2026-02-09"`; a bare-date `date_after` bound parses to the
start of that day (00:00:00), so the clause compares the record's timestamp
against day start. -/
theorem C8_date_bounds (hh mi ss us : Nat) (r : HRecord)
    (hhh : hh < 24) (hmi : mi < 60) (hss : ss < 60) (hus : us < 1000000)
    (hdel : r.deletedAt = none)
    (hlv : r.lastVisitTime = some ⟨2026, 2, 10, hh, mi, ss, us⟩) :
    passesHistoryFilters r
        (some [⟨"date_before", some (.date (.bare 2026 2 10))⟩]) = true ∧
    passesHistoryFilters r
        (some [⟨"date_before", some (.date (.bare 2026 2 9))⟩]) = false ∧
    (∀ y mo d : Nat,
      parseDateBound (.bare y mo d) false = ⟨y, mo, d, 0, 0, 0, 0⟩) ∧
    (∀ y mo d : Nat,
      histClause r ⟨"date_after", some (.date (.bare y mo d))⟩ =
        tsLe ⟨y, mo, d, 0, 0, 0, 0⟩ ⟨2026, 2, 10, hh, mi, ss, us⟩) := by
  refine ⟨?_, ?_, fun y mo d => rfl, fun y mo d => ?_⟩
  · simp [passesHistoryFilters, histClause, hlv, hdel, parseDateBound, tsLe]
    split_ifs <;> omega
  · simp [passesHistoryFilters, histClause, hlv, hdel, parseDateBound, tsLe]
  · simp [histClause, hlv, parseDateBound]

/-- Witness for C8 at 12:30:00 on 2026-02-10. -/
theorem C8_date_bounds_w :
    passesHistoryFilters c8rec
        (some [⟨"date_before", some (.date (.bare 2026 2 10))⟩]) = true ∧
    passesHistoryFilters c8rec
        (some [⟨"date_before", some (.date (.bare 2026 2 9))⟩]) = false ∧
    (∀ y mo d : Nat,
      parseDateBound (.bare y mo d) false = ⟨y, mo, d, 0, 0, 0, 0⟩) ∧
    (∀ y mo d : Nat,
      histClause c8rec ⟨"date_after", some (.date (.bare y mo d))⟩ =
        tsLe ⟨y, mo, d, 0, 0, 0, 0⟩ ⟨2026, 2, 10, 12, 30, 0, 0⟩) :=
  C8_date_bounds 12 30 0 0 c8rec (by decide) (by decide) (by decide)
    (by decide) (by rfl) (by rfl)

/-- Unfolding of the dimensionality invariant over a cons. -/
theorem wfH_cons (x : HRecord) (t : List HRecord) :
    wfH (x :: t) ↔
      ((∀ v, x.embedding = some v → v.length = EMBEDDING_DIM) ∧ wfH t) := by
  constructor
  · intro h
    exact ⟨h x (List.mem_cons_self x t), fun r hr => h r (List.mem_cons_of_mem x hr)⟩
  · intro h r hr
    rcases List.mem_cons.mp hr with hx | ht
    · subst hx; exact h.1
    · exact h.2 r ht

/-- Unfolding of the dimensionality invariant over a cons (bookmarks). -/
theorem wfB_cons (x : BRecord) (t : List BRecord) :
    wfB (x :: t) ↔
      ((∀ v, x.embedding = some v → v.length = EMBEDDING_DIM) ∧ wfB t) := by
  constructor
  · intro h
    exact ⟨h x (List.mem_cons_self x t), fun r hr => h r (List.mem_cons_of_mem x hr)⟩
  · intro h r hr
    rcases List.mem_cons.mp hr with hx | ht
    · subst hx; exact h.1
    · exact h.2 r ht

/-- The write-back loop only ever persists vectors of exactly
`EMBEDDING_DIM` components. -/
theorem applyVectorsH_wf (store : List HRecord) (vecs : List (List ℚ))
    (rem now : Nat) (hwf : wfH store) :
    wfH (applyVectorsH store vecs rem now) := by
  induction store generalizing vecs rem with
  | nil => intro r hr; simp [applyVectorsH] at hr
  | cons x t ih =>
      obtain ⟨hx, ht⟩ := (wfH_cons x t).mp hwf
      cases vecs with
      | nil =>
          rw [applyVectorsH]
          by_cases hc : (0 < rem && histSel x) = true
          · rw [if_pos hc]; exact hwf
          · rw [if_neg hc]
            exact (wfH_cons _ _).mpr ⟨hx, ih [] rem ht⟩
      | cons v vs =>
          rw [applyVectorsH]
          by_cases hc : (0 < rem && histSel x) = true
          · rw [if_pos hc]
            refine (wfH_cons _ _).mpr ⟨?_, ih vs (rem - 1) ht⟩
            by_cases hl : v.length = EMBEDDING_DIM
            · rw [if_pos hl]
              intro w hw
              simp [updEmbH] at hw
              subst hw
              exact hl
            · rw [if_neg hl]
              exact hx
          · rw [if_neg hc]
            exact (wfH_cons _ _).mpr ⟨hx, ih (v :: vs) rem ht⟩

/-- Bookmark version of `applyVectorsH_wf`. -/
theorem applyVectorsB_wf (store : List BRecord) (vecs : List (List ℚ))
    (rem now : Nat) (hwf : wfB store) :
    wfB (applyVectorsB store vecs rem now) := by
  induction store generalizing vecs rem with
  | nil => intro r hr; simp [applyVectorsB] at hr
  | cons x t ih =>
      obtain ⟨hx, ht⟩ := (wfB_cons x t).mp hwf
      cases vecs with
      | nil =>
          rw [applyVectorsB]
          by_cases hc : (0 < rem && bookSel x) = true
          · rw [if_pos hc]; exact hwf
          · rw [if_neg hc]
            exact (wfB_cons _ _).mpr ⟨hx, ih [] rem ht⟩
      | cons v vs =>
          rw [applyVectorsB]
          by_cases hc : (0 < rem && bookSel x) = true
          · rw [if_pos hc]
            refine (wfB_cons _ _).mpr ⟨?_, ih vs (rem - 1) ht⟩
            by_cases hl : v.length = EMBEDDING_DIM
            · rw [if_pos hl]
              intro w hw
              simp [updEmbB] at hw
              subst hw
              exact hl
            · rw [if_neg hl]
              exact hx
          · rw [if_neg hc]
            exact (wfB_cons _ _).mpr ⟨hx, ih (v :: vs) rem ht⟩

/-- The write-back loop never clears an embedding: the count of embedded
rows does not decrease. -/
theorem applyVectorsH_countEmb (store : List HRecord) (vecs : List (List ℚ))
    (rem now : Nat) :
    countEmbH store ≤ countEmbH (applyVectorsH store vecs rem now) := by
  induction store generalizing vecs rem with
  | nil => simp [applyVectorsH]
  | cons x t ih =>
      cases vecs with
      | nil =>
          rw [applyVectorsH]
          by_cases hc : (0 < rem && histSel x) = true
          · rw [if_pos hc]
          · rw [if_neg hc]
            simp only [countEmbH, List.countP_cons] at ih ⊢
            exact Nat.add_le_add (ih [] rem) (Nat.le_refl _)
      | cons v vs =>
          rw [applyVectorsH]
          by_cases hc : (0 < rem && histSel x) = true
          · rw [if_pos hc]
            simp only [countEmbH, List.countP_cons]
            refine Nat.add_le_add (ih vs (rem - 1)) ?_
            by_cases hl : v.length = EMBEDDING_DIM <;>
              by_cases hx : x.embedding.isSome = true <;>
                simp [hl, hx, updEmbH]
          · rw [if_neg hc]
            simp only [countEmbH, List.countP_cons]
            exact Nat.add_le_add (ih (v :: vs) rem) (Nat.le_refl _)

/-- Bookmark version of `applyVectorsH_countEmb`. -/
theorem applyVectorsB_countEmb (store : List BRecord) (vecs : List (List ℚ))
    (rem now : Nat) :
    countEmbB store ≤ countEmbB (applyVectorsB store vecs rem now) := by
  induction store generalizing vecs rem with
  | nil => simp [applyVectorsB]
  | cons x t ih =>
      cases vecs with
      | nil =>
          rw [applyVectorsB]
          by_cases hc : (0 < rem && bookSel x) = true
          · rw [if_pos hc]
          · rw [if_neg hc]
            simp only [countEmbB, List.countP_cons] at ih ⊢
            exact Nat.add_le_add (ih [] rem) (Nat.le_refl _)
      | cons v vs =>
          rw [applyVectorsB]
          by_cases hc : (0 < rem && bookSel x) = true
          · rw [if_pos hc]
            simp only [countEmbB, List.countP_cons]
            refine Nat.add_le_add (ih vs (rem - 1)) ?_
            by_cases hl : v.length = EMBEDDING_DIM <;>
              by_cases hx : x.embedding.isSome = true <;>
                simp [hl, hx, updEmbB]
          · rw [if_neg hc]
            simp only [countEmbB, List.countP_cons]
            exact Nat.add_le_add (ih (v :: vs) rem) (Nat.le_refl _)

/-- One history batch preserves the dimensionality invariant. -/
theorem embedHistoryBatch_wf (store : List HRecord)
    (resp : Option (List (List ℚ))) (now bs : Nat) (hwf : wfH store) :
    wfH (embedHistoryBatch store resp now bs).1 := by
  simp only [embedHistoryBatch]
  split
  · exact hwf
  · split
    · exact hwf
    · split
      · exact hwf
      · exact applyVectorsH_wf store _ bs now hwf

/-- One bookmark batch preserves the dimensionality invariant. -/
theorem embedBookmarksBatch_wf (store : List BRecord)
    (resp : Option (List (List ℚ))) (now bs : Nat) (hwf : wfB store) :
    wfB (embedBookmarksBatch store resp now bs).1 := by
  simp only [embedBookmarksBatch]
  split
  · exact hwf
  · split
    · exact hwf
    · split
      · exact hwf
      · exact applyVectorsB_wf store _ bs now hwf

/-- One history batch never decreases the number of embedded rows. -/
theorem embedHistoryBatch_countEmb (store : List HRecord)
    (resp : Option (List (List ℚ))) (now bs : Nat) :
    countEmbH store ≤ countEmbH (embedHistoryBatch store resp now bs).1 := by
  simp only [embedHistoryBatch]
  split
  · exact Nat.le_refl _
  · split
    · exact Nat.le_refl _
    · split
      · exact Nat.le_refl _
      · exact applyVectorsH_countEmb store _ bs now

/-- One bookmark batch never decreases the number of embedded rows. -/
theorem embedBookmarksBatch_countEmb (store : List BRecord)
    (resp : Option (List (List ℚ))) (now bs : Nat) :
    countEmbB store ≤ countEmbB (embedBookmarksBatch store resp now bs).1 := by
  simp only [embedBookmarksBatch]
  split
  · exact Nat.le_refl _
  · split
    · exact Nat.le_refl _
    · split
      · exact Nat.le_refl _
      · exact applyVectorsB_countEmb store _ bs now

/-- The history backfill loop preserves the invariant and never decreases
the embedded count. -/
theorem runHistoryBackfill_wf_countEmb (resps : List (Option (List (List ℚ))))
    (store : List HRecord) (now bs : Nat) (hwf : wfH store) :
    wfH (runHistoryBackfill store resps now bs).1 ∧
    countEmbH store ≤ countEmbH (runHistoryBackfill store resps now bs).1 := by
  induction resps generalizing store with
  | nil => exact ⟨hwf, Nat.le_refl _⟩
  | cons resp rest ih =>
      rw [runHistoryBackfill]
      have hw := embedHistoryBatch_wf store resp now bs hwf
      have hcnt := embedHistoryBatch_countEmb store resp now bs
      split
      · exact ⟨hw, hcnt⟩
      · obtain ⟨hw2, hc2⟩ := ih (embedHistoryBatch store resp now bs).1 hw
        exact ⟨hw2, Nat.le_trans hcnt hc2⟩

/-- The bookmark backfill loop preserves the invariant and never decreases
the embedded count. -/
theorem runBookmarkBackfill_wf_countEmb (resps : List (Option (List (List ℚ))))
    (store : List BRecord) (now bs : Nat) (hwf : wfB store) :
    wfB (runBookmarkBackfill store resps now bs).1 ∧
    countEmbB store ≤ countEmbB (runBookmarkBackfill store resps now bs).1 := by
  induction resps generalizing store with
  | nil => exact ⟨hwf, Nat.le_refl _⟩
  | cons resp rest ih =>
      rw [runBookmarkBackfill]
      have hw := embedBookmarksBatch_wf store resp now bs hwf
      have hcnt := embedBookmarksBatch_countEmb store resp now bs
      split
      · exact ⟨hw, hcnt⟩
      · obtain ⟨hw2, hc2⟩ := ih (embedBookmarksBatch store resp now bs).1 hw
        exact ⟨hw2, Nat.le_trans hcnt hc2⟩

/-- Updating the mutable fields of the matched history row leaves its
embedding untouched, so the invariant survives. -/
theorem updateFirstH_wf (s : List HRecord) (r : RawHistory) (t : Nat)
    (hwf : wfH s) : wfH (updateFirstH s r t) := by
  induction s with
  | nil => exact hwf
  | cons x xs ih =>
      obtain ⟨hx, ht⟩ := (wfH_cons x xs).mp hwf
      rw [updateFirstH]
      by_cases hm : matchesH r x = true
      · rw [if_pos hm]
        refine (wfH_cons _ _).mpr ⟨?_, ht⟩
        intro v hv
        exact hx v hv
      · rw [if_neg hm]
        exact (wfH_cons _ _).mpr ⟨hx, ih ht⟩

/-- Bookmark version of `updateFirstH_wf`. -/
theorem updateFirstB_wf (s : List BRecord) (r : RawBookmark) (t : Nat)
    (hwf : wfB s) : wfB (updateFirstB s r t) := by
  induction s with
  | nil => exact hwf
  | cons x xs ih =>
      obtain ⟨hx, ht⟩ := (wfB_cons x xs).mp hwf
      rw [updateFirstB]
      by_cases hm : matchesB r x = true
      · rw [if_pos hm]
        refine (wfB_cons _ _).mpr ⟨?_, ht⟩
        intro v hv
        exact hx v hv
      · rw [if_neg hm]
        exact (wfB_cons _ _).mpr ⟨hx, ih ht⟩

/-- One upsert step preserves the dimensionality invariant: updates never
touch the embedding, inserts carry a null embedding. -/
theorem stepH_wf (st : List HRecord × Nat) (r : RawHistory) (t : Nat)
    (hwf : wfH st.1) : wfH (stepH st r t).1 := by
  rw [stepH]
  split
  · exact updateFirstH_wf st.1 r t hwf
  · intro x hx
    rcases List.mem_append.mp hx with hs | hn
    · exact hwf x hs
    · intro v hv
      simp at hn
      subst hn
      simp [newRowH] at hv

/-- Bookmark version of `stepH_wf`. -/
theorem stepB_wf (st : List BRecord × Nat) (r : RawBookmark) (t : Nat)
    (hwf : wfB st.1) : wfB (stepB st r t).1 := by
  rw [stepB]
  split
  · exact updateFirstB_wf st.1 r t hwf
  · intro x hx
    rcases List.mem_append.mp hx with hs | hn
    · exact hwf x hs
    · intro v hv
      simp at hn
      subst hn
      simp [newRowB] at hv

/-- A whole `upsert_history` call preserves the dimensionality invariant. -/
theorem upsertHistory_wf (store : List HRecord) (nid : Nat)
    (rows : List RawHistory) (t : Nat) (hwf : wfH store) :
    wfH (upsertHistory store nid rows t).store := by
  suffices h : ∀ st : List HRecord × Nat, wfH st.1 →
      wfH (rows.foldl (fun st r => stepH st r t) st).1 by
    exact h (store, nid) hwf
  induction rows with
  | nil => intro st hst; exact hst
  | cons r rest ih =>
      intro st hst
      exact ih (stepH st r t) (stepH_wf st r t hst)

/-- A whole `upsert_bookmarks` call preserves the dimensionality invariant. -/
theorem upsertBookmarks_wf (store : List BRecord) (nid : Nat)
    (rows : List RawBookmark) (t : Nat) (hwf : wfB store) :
    wfB (upsertBookmarks store nid rows t).store := by
  suffices h : ∀ st : List BRecord × Nat, wfB st.1 →
      wfB (rows.foldl (fun st r => stepB st r t) st).1 by
    exact h (store, nid) hwf
  induction rows with
  | nil => intro st hst; exact hst
  | cons r rest ih =>
      intro st hst
      exact ih (stepB st r t) (stepB_wf st r t hst)

/-- C5: the embedding-dimensionality invariant is preserved by every
operation, and backfill is monotone.  If every non-null embedding in the
store has exactly `EMBEDDING_DIM` components, then after an ingestion upsert,
after one backfill batch, and after a whole backfill run the same holds —
no wrong-length or partially-computed vector is ever persisted — and neither
a batch nor a run ever decreases the number of embedded records. -/
theorem C5_embedding_invariant (hstore : List HRecord) (bstore : List BRecord)
    (rows : List RawHistory) (brows : List RawBookmark) (nid bnid t : Nat)
    (resp bresp : Option (List (List ℚ)))
    (hresps bresps : List (Option (List (List ℚ)))) (now bs : Nat)
    (hwfh : wfH hstore) (hwfb : wfB bstore) :
    wfH (upsertHistory hstore nid rows t).store ∧
    wfB (upsertBookmarks bstore bnid brows t).store ∧
    wfH (embedHistoryBatch hstore resp now bs).1 ∧
    wfB (embedBookmarksBatch bstore bresp now bs).1 ∧
    countEmbH hstore ≤ countEmbH (embedHistoryBatch hstore resp now bs).1 ∧
    countEmbB bstore ≤ countEmbB (embedBookmarksBatch bstore bresp now bs).1 ∧
    wfH (runHistoryBackfill hstore hresps now bs).1 ∧
    wfB (runBookmarkBackfill bstore bresps now bs).1 ∧
    countEmbH hstore ≤ countEmbH (runHistoryBackfill hstore hresps now bs).1 ∧
    countEmbB bstore ≤ countEmbB (runBookmarkBackfill bstore bresps now bs).1 := by
  obtain ⟨hw1, hc1⟩ := runHistoryBackfill_wf_countEmb hresps hstore now bs hwfh
  obtain ⟨hw2, hc2⟩ := runBookmarkBackfill_wf_countEmb bresps bstore now bs hwfb
  exact ⟨upsertHistory_wf hstore nid rows t hwfh,
    upsertBookmarks_wf bstore bnid brows t hwfb,
    embedHistoryBatch_wf hstore resp now bs hwfh,
    embedBookmarksBatch_wf bstore bresp now bs hwfb,
    embedHistoryBatch_countEmb hstore resp now bs,
    embedBookmarksBatch_countEmb bstore bresp now bs,
    hw1, hw2, hc1, hc2⟩

/-- Witness for C5 on one-row stores (whose sole records carry no
embedding, so the invariant holds), a well-formed batch response and a
one-batch run. -/
theorem C5_embedding_invariant_w :
    wfH (upsertHistory [exHistRec] 2 [⟨"https://a.example", none, none, none, 1⟩] 7).store ∧
    wfB (upsertBookmarks [exBookRec] 3 [⟨"https://b.example", none, none, none⟩] 7).store ∧
    wfH (embedHistoryBatch [exHistRec] (some [[]]) 7 50).1 ∧
    wfB (embedBookmarksBatch [exBookRec] (some [[]]) 7 50).1 ∧
    countEmbH [exHistRec] ≤ countEmbH (embedHistoryBatch [exHistRec] (some [[]]) 7 50).1 ∧
    countEmbB [exBookRec] ≤ countEmbB (embedBookmarksBatch [exBookRec] (some [[]]) 7 50).1 ∧
    wfH (runHistoryBackfill [exHistRec] [some [[]]] 7 50).1 ∧
    wfB (runBookmarkBackfill [exBookRec] [some [[]]] 7 50).1 ∧
    countEmbH [exHistRec] ≤ countEmbH (runHistoryBackfill [exHistRec] [some [[]]] 7 50).1 ∧
    countEmbB [exBookRec] ≤ countEmbB (runBookmarkBackfill [exBookRec] [some [[]]] 7 50).1 :=
  C5_embedding_invariant [exHistRec] [exBookRec]
    [⟨"https://a.example", none, none, none, 1⟩]
    [⟨"https://b.example", none, none, none⟩] 2 3 7 (some [[]]) (some [[]])
    [some [[]]] [some [[]]] 7 50
    (by intro r hr v hv; simp [exHistRec] at hr; subst hr; simp at hv)
    (by intro r hr v hv; simp [exBookRec] at hr; subst hr; simp at hv)



/-- Updating mutable fields does not change what the identity-key lookup
sees. -/
theorem matchesH_updateRowH (r2 r : RawHistory) (x : HRecord) (t : Nat) :
    matchesH r (updateRowH x r2 t) = matchesH r x := rfl

/-- Bookmark version: `updateRowB` touches neither url, browser nor folder. -/
theorem matchesB_updateRowB (r2 r : RawBookmark) (x : BRecord) (t : Nat) :
    matchesB r (updateRowB x r2 t) = matchesB r x := rfl

/-- A key present in the store is still present after updating the first
match of any row. -/
theorem updateFirstH_pres (s : List HRecord) (r2 : RawHistory) (t : Nat)
    (r : RawHistory) (h : ∃ x ∈ s, matchesH r x = true) :
    ∃ x ∈ updateFirstH s r2 t, matchesH r x = true := by
  induction s with
  | nil => simp at h
  | cons a as ih =>
      rw [updateFirstH]
      obtain ⟨x, hx, hm⟩ := h
      rcases List.mem_cons.mp hx with hxa | hxs
      · subst hxa
        by_cases hma : matchesH r2 x = true
        · rw [if_pos hma]
          exact ⟨updateRowH x r2 t, List.mem_cons_self _ _,
            by rw [matchesH_updateRowH]; exact hm⟩
        · rw [if_neg hma]
          exact ⟨x, List.mem_cons_self _ _, hm⟩
      · by_cases hma : matchesH r2 a = true
        · rw [if_pos hma]
          exact ⟨x, List.mem_cons_of_mem _ hxs, hm⟩
        · rw [if_neg hma]
          obtain ⟨y, hy, hmy⟩ := ih ⟨x, hxs, hm⟩
          exact ⟨y, List.mem_cons_of_mem _ hy, hmy⟩

/-- Bookmark version of `updateFirstH_pres`. -/
theorem updateFirstB_pres (s : List BRecord) (r2 : RawBookmark) (t : Nat)
    (r : RawBookmark) (h : ∃ x ∈ s, matchesB r x = true) :
    ∃ x ∈ updateFirstB s r2 t, matchesB r x = true := by
  induction s with
  | nil => simp at h
  | cons a as ih =>
      rw [updateFirstB]
      obtain ⟨x, hx, hm⟩ := h
      rcases List.mem_cons.mp hx with hxa | hxs
      · subst hxa
        by_cases hma : matchesB r2 x = true
        · rw [if_pos hma]
          exact ⟨updateRowB x r2 t, List.mem_cons_self _ _,
            by rw [matchesB_updateRowB]; exact hm⟩
        · rw [if_neg hma]
          exact ⟨x, List.mem_cons_self _ _, hm⟩
      · by_cases hma : matchesB r2 a = true
        · rw [if_pos hma]
          exact ⟨x, List.mem_cons_of_mem _ hxs, hm⟩
        · rw [if_neg hma]
          obtain ⟨y, hy, hmy⟩ := ih ⟨x, hxs, hm⟩
          exact ⟨y, List.mem_cons_of_mem _ hy, hmy⟩

/-- A key present in the store is still present after any upsert step. -/
theorem stepH_pres (st : List HRecord × Nat) (r2 : RawHistory) (t : Nat)
    (r : RawHistory) (h : ∃ x ∈ st.1, matchesH r x = true) :
    ∃ x ∈ (stepH st r2 t).1, matchesH r x = true := by
  rw [stepH]
  split
  · exact updateFirstH_pres st.1 r2 t r h
  · obtain ⟨x, hx, hm⟩ := h
    exact ⟨x, List.mem_append.mpr (Or.inl hx), hm⟩

/-- Bookmark version of `stepH_pres`. -/
theorem stepB_pres (st : List BRecord × Nat) (r2 : RawBookmark) (t : Nat)
    (r : RawBookmark) (h : ∃ x ∈ st.1, matchesB r x = true) :
    ∃ x ∈ (stepB st r2 t).1, matchesB r x = true := by
  rw [stepB]
  split
  · exact updateFirstB_pres st.1 r2 t r h
  · obtain ⟨x, hx, hm⟩ := h
    exact ⟨x, List.mem_append.mpr (Or.inl hx), hm⟩

/-- A key present in the store is still present after a whole upsert run. -/
theorem foldlStepH_pres (rows : List RawHistory) (t : Nat)
    (st : List HRecord × Nat) (r : RawHistory)
    (h : ∃ x ∈ st.1, matchesH r x = true) :
    ∃ x ∈ (rows.foldl (fun st r2 => stepH st r2 t) st).1,
      matchesH r x = true := by
  induction rows generalizing st with
  | nil => exact h
  | cons a rest ih =>
      simp only [List.foldl_cons]
      exact ih (stepH st a t) (stepH_pres st a t r h)

/-- Bookmark version of `foldlStepH_pres`. -/
theorem foldlStepB_pres (rows : List RawBookmark) (t : Nat)
    (st : List BRecord × Nat) (r : RawBookmark)
    (h : ∃ x ∈ st.1, matchesB r x = true) :
    ∃ x ∈ (rows.foldl (fun st r2 => stepB st r2 t) st).1,
      matchesB r x = true := by
  induction rows generalizing st with
  | nil => exact h
  | cons a rest ih =>
      simp only [List.foldl_cons]
      exact ih (stepB st a t) (stepB_pres st a t r h)

/-- After processing a row, its own identity key is present: either it
matched an existing row (the update keeps url and browser), or the inserted
row carries exactly the key. -/
theorem stepH_self_pres (st : List HRecord × Nat) (r : RawHistory) (t : Nat) :
    ∃ x ∈ (stepH st r t).1, matchesH r x = true := by
  rw [stepH]
  split
  · rename_i hany
    rw [List.any_eq_true] at hany
    exact updateFirstH_pres st.1 r t r hany
  · exact ⟨newRowH r st.2 t,
      List.mem_append.mpr (Or.inr (List.mem_singleton.mpr rfl)),
      by simp [matchesH, newRowH, urlDigest]⟩

/-- Bookmark version of `stepH_self_pres`. -/
theorem stepB_self_pres (st : List BRecord × Nat) (r : RawBookmark) (t : Nat) :
    ∃ x ∈ (stepB st r t).1, matchesB r x = true := by
  rw [stepB]
  split
  · rename_i hany
    rw [List.any_eq_true] at hany
    exact updateFirstB_pres st.1 r t r hany
  · refine ⟨newRowB r st.2 t,
      List.mem_append.mpr (Or.inr (List.mem_singleton.mpr rfl)), ?_⟩
    cases h : orNone r.folder <;> simp [matchesB, newRowB, urlDigest, h]

/-- After a whole upsert run, every processed row has a matching row in the
store. -/
theorem upsertHistory_all_pres (store : List HRecord) (nid : Nat)
    (rows : List RawHistory) (t : Nat) :
    ∀ r ∈ rows, ∃ x ∈ (upsertHistory store nid rows t).store,
      matchesH r x = true := by
  suffices h : ∀ st : List HRecord × Nat, ∀ r ∈ rows,
      ∃ x ∈ (rows.foldl (fun st r2 => stepH st r2 t) st).1,
        matchesH r x = true from fun r hr => h (store, nid) r hr
  induction rows with
  | nil => intro st r hr; simp at hr
  | cons a rest ih =>
      intro st r hr
      simp only [List.foldl_cons]
      rcases List.mem_cons.mp hr with hra | hr2
      · subst hra
        exact foldlStepH_pres rest t (stepH st r t) r (stepH_self_pres st r t)
      · exact ih (stepH st a t) r hr2

/-- Bookmark version of `upsertHistory_all_pres`. -/
theorem upsertBookmarks_all_pres (store : List BRecord) (nid : Nat)
    (rows : List RawBookmark) (t : Nat) :
    ∀ r ∈ rows, ∃ x ∈ (upsertBookmarks store nid rows t).store,
      matchesB r x = true := by
  suffices h : ∀ st : List BRecord × Nat, ∀ r ∈ rows,
      ∃ x ∈ (rows.foldl (fun st r2 => stepB st r2 t) st).1,
        matchesB r x = true from fun r hr => h (store, nid) r hr
  induction rows with
  | nil => intro st r hr; simp at hr
  | cons a rest ih =>
      intro st r hr
      simp only [List.foldl_cons]
      rcases List.mem_cons.mp hr with hra | hr2
      · subst hra
        exact foldlStepB_pres rest t (stepB st r t) r (stepB_self_pres st r t)
      · exact ih (stepB st a t) r hr2

/-- An in-place update changes only mutable fields and `updated_at`:
modulo `stripMutH` the store is unchanged. -/
theorem updateFirstH_strip (s : List HRecord) (r : RawHistory) (t : Nat) :
    (updateFirstH s r t).map stripMutH = s.map stripMutH := by
  induction s with
  | nil => rfl
  | cons a as ih =>
      rw [updateFirstH]
      by_cases hm : matchesH r a = true
      · rw [if_pos hm]
        rfl
      · rw [if_neg hm]
        simp only [List.map_cons, ih]

/-- Bookmark version of `updateFirstH_strip`. -/
theorem updateFirstB_strip (s : List BRecord) (r : RawBookmark) (t : Nat) :
    (updateFirstB s r t).map stripMutB = s.map stripMutB := by
  induction s with
  | nil => rfl
  | cons a as ih =>
      rw [updateFirstB]
      by_cases hm : matchesB r a = true
      · rw [if_pos hm]
        rfl
      · rw [if_neg hm]
        simp only [List.map_cons, ih]

/-- A run over rows whose keys are all already present does no insert: the
next id is unchanged and the store is unchanged modulo mutable fields and
`updated_at`. -/
theorem foldlStepH_no_insert (rows : List RawHistory) (t : Nat) :
    ∀ st : List HRecord × Nat,
      (∀ r ∈ rows, ∃ x ∈ st.1, matchesH r x = true) →
      (rows.foldl (fun st r2 => stepH st r2 t) st).1.map stripMutH
          = st.1.map stripMutH ∧
      (rows.foldl (fun st r2 => stepH st r2 t) st).2 = st.2 := by
  induction rows with
  | nil => exact fun st _ => ⟨rfl, rfl⟩
  | cons a rest ih =>
      intro st h
      have hstep : stepH st a t = (updateFirstH st.1 a t, st.2) := by
        rw [stepH, if_pos]
        rw [List.any_eq_true]
        exact h a (List.mem_cons_self a rest)
      have hrest : ∀ r ∈ rest, ∃ x ∈ (stepH st a t).1, matchesH r x = true :=
        fun r hr => stepH_pres st a t r (h r (List.mem_cons_of_mem a hr))
      obtain ⟨h1, h2⟩ := ih (stepH st a t) hrest
      simp only [List.foldl_cons]
      constructor
      · rw [h1, hstep]
        exact updateFirstH_strip st.1 a t
      · rw [h2, hstep]

/-- Bookmark version of `foldlStepH_no_insert`. -/
theorem foldlStepB_no_insert (rows : List RawBookmark) (t : Nat) :
    ∀ st : List BRecord × Nat,
      (∀ r ∈ rows, ∃ x ∈ st.1, matchesB r x = true) →
      (rows.foldl (fun st r2 => stepB st r2 t) st).1.map stripMutB
          = st.1.map stripMutB ∧
      (rows.foldl (fun st r2 => stepB st r2 t) st).2 = st.2 := by
  induction rows with
  | nil => exact fun st _ => ⟨rfl, rfl⟩
  | cons a rest ih =>
      intro st h
      have hstep : stepB st a t = (updateFirstB st.1 a t, st.2) := by
        rw [stepB, if_pos]
        rw [List.any_eq_true]
        exact h a (List.mem_cons_self a rest)
      have hrest : ∀ r ∈ rest, ∃ x ∈ (stepB st a t).1, matchesB r x = true :=
        fun r hr => stepB_pres st a t r (h r (List.mem_cons_of_mem a hr))
      obtain ⟨h1, h2⟩ := ih (stepB st a t) hrest
      simp only [List.foldl_cons]
      constructor
      · rw [h1, hstep]
        exact updateFirstB_strip st.1 a t
      · rw [h2, hstep]

/-- C6: ingestion upsert is idempotent.  Running `upsert_history`
(resp. `upsert_bookmarks`) a second time on identical input performs no
insert: both calls return the number of input records, the second call
leaves the row count, the autoincrement counter, and every field other than
the mutable ones (`title`, `domain`/`folder` never changes on update,
`visit_count`/`added_at`, `last_visit_time`) and `updated_at` exactly as the
first call left them — in particular the same ids, identity keys
(digest(url)+browser, plus folder-or-null for bookmarks) and `created_at`. -/
theorem C6_idempotent_upsert (hstore : List HRecord) (bstore : List BRecord)
    (nid bnid : Nat) (rows : List RawHistory) (brows : List RawBookmark)
    (t1 t2 : Nat)
    (hurl : ∀ r ∈ rows, r.url ≠ "") (burl : ∀ r ∈ brows, r.url ≠ "") :
    (upsertHistory hstore nid rows t1).processed = rows.length ∧
    (upsertHistory (upsertHistory hstore nid rows t1).store
        (upsertHistory hstore nid rows t1).nextId rows t2).processed
      = rows.length ∧
    (upsertHistory (upsertHistory hstore nid rows t1).store
        (upsertHistory hstore nid rows t1).nextId rows t2).nextId
      = (upsertHistory hstore nid rows t1).nextId ∧
    (upsertHistory (upsertHistory hstore nid rows t1).store
        (upsertHistory hstore nid rows t1).nextId rows t2).store.length
      = (upsertHistory hstore nid rows t1).store.length ∧
    (upsertHistory (upsertHistory hstore nid rows t1).store
        (upsertHistory hstore nid rows t1).nextId rows t2).store.map stripMutH
      = (upsertHistory hstore nid rows t1).store.map stripMutH ∧
    (upsertBookmarks bstore bnid brows t1).processed = brows.length ∧
    (upsertBookmarks (upsertBookmarks bstore bnid brows t1).store
        (upsertBookmarks bstore bnid brows t1).nextId brows t2).processed
      = brows.length ∧
    (upsertBookmarks (upsertBookmarks bstore bnid brows t1).store
        (upsertBookmarks bstore bnid brows t1).nextId brows t2).nextId
      = (upsertBookmarks bstore bnid brows t1).nextId ∧
    (upsertBookmarks (upsertBookmarks bstore bnid brows t1).store
        (upsertBookmarks bstore bnid brows t1).nextId brows t2).store.length
      = (upsertBookmarks bstore bnid brows t1).store.length ∧
    (upsertBookmarks (upsertBookmarks bstore bnid brows t1).store
        (upsertBookmarks bstore bnid brows t1).nextId brows t2).store.map stripMutB
      = (upsertBookmarks bstore bnid brows t1).store.map stripMutB := by
  have hpres := upsertHistory_all_pres hstore nid rows t1
  have bpres := upsertBookmarks_all_pres bstore bnid brows t1
  obtain ⟨hmap, hnid⟩ := foldlStepH_no_insert rows t2
    ((upsertHistory hstore nid rows t1).store,
      (upsertHistory hstore nid rows t1).nextId) hpres
  obtain ⟨bmap, bnid2⟩ := foldlStepB_no_insert brows t2
    ((upsertBookmarks bstore bnid brows t1).store,
      (upsertBookmarks bstore bnid brows t1).nextId) bpres
  have hlen : (upsertHistory (upsertHistory hstore nid rows t1).store
      (upsertHistory hstore nid rows t1).nextId rows t2).store.length
      = (upsertHistory hstore nid rows t1).store.length := by
    have := congrArg List.length hmap
    simpa using this
  have blen : (upsertBookmarks (upsertBookmarks bstore bnid brows t1).store
      (upsertBookmarks bstore bnid brows t1).nextId brows t2).store.length
      = (upsertBookmarks bstore bnid brows t1).store.length := by
    have := congrArg List.length bmap
    simpa using this
  exact ⟨rfl, rfl, hnid, hlen, hmap, rfl, rfl, bnid2, blen, bmap⟩

/-- Witness for C6: upserting one history row and one bookmark row twice
into initially empty stores. -/
theorem C6_idempotent_upsert_w :
    (upsertHistory [] 1 [⟨"https://a.example", some "A", some "a.example",
        none, 2⟩] 5).processed = 1 ∧
    (upsertHistory (upsertHistory [] 1 [⟨"https://a.example", some "A",
        some "a.example", none, 2⟩] 5).store
        (upsertHistory [] 1 [⟨"https://a.example", some "A", some "a.example",
          none, 2⟩] 5).nextId
        [⟨"https://a.example", some "A", some "a.example", none, 2⟩] 6).processed
      = 1 ∧
    (upsertHistory (upsertHistory [] 1 [⟨"https://a.example", some "A",
        some "a.example", none, 2⟩] 5).store
        (upsertHistory [] 1 [⟨"https://a.example", some "A", some "a.example",
          none, 2⟩] 5).nextId
        [⟨"https://a.example", some "A", some "a.example", none, 2⟩] 6).nextId
      = (upsertHistory [] 1 [⟨"https://a.example", some "A", some "a.example",
          none, 2⟩] 5).nextId ∧
    (upsertHistory (upsertHistory [] 1 [⟨"https://a.example", some "A",
        some "a.example", none, 2⟩] 5).store
        (upsertHistory [] 1 [⟨"https://a.example", some "A", some "a.example",
          none, 2⟩] 5).nextId
        [⟨"https://a.example", some "A", some "a.example", none, 2⟩] 6).store.length
      = (upsertHistory [] 1 [⟨"https://a.example", some "A", some "a.example",
          none, 2⟩] 5).store.length ∧
    (upsertHistory (upsertHistory [] 1 [⟨"https://a.example", some "A",
        some "a.example", none, 2⟩] 5).store
        (upsertHistory [] 1 [⟨"https://a.example", some "A", some "a.example",
          none, 2⟩] 5).nextId
        [⟨"https://a.example", some "A", some "a.example", none, 2⟩] 6).store.map
          stripMutH
      = (upsertHistory [] 1 [⟨"https://a.example", some "A", some "a.example",
          none, 2⟩] 5).store.map stripMutH ∧
    (upsertBookmarks [] 1 [⟨"https://b.example", some "B", some "f",
        none⟩] 5).processed = 1 ∧
    (upsertBookmarks (upsertBookmarks [] 1 [⟨"https://b.example", some "B",
        some "f", none⟩] 5).store
        (upsertBookmarks [] 1 [⟨"https://b.example", some "B", some "f",
          none⟩] 5).nextId
        [⟨"https://b.example", some "B", some "f", none⟩] 6).processed = 1 ∧
    (upsertBookmarks (upsertBookmarks [] 1 [⟨"https://b.example", some "B",
        some "f", none⟩] 5).store
        (upsertBookmarks [] 1 [⟨"https://b.example", some "B", some "f",
          none⟩] 5).nextId
        [⟨"https://b.example", some "B", some "f", none⟩] 6).nextId
      = (upsertBookmarks [] 1 [⟨"https://b.example", some "B", some "f",
          none⟩] 5).nextId ∧
    (upsertBookmarks (upsertBookmarks [] 1 [⟨"https://b.example", some "B",
        some "f", none⟩] 5).store
        (upsertBookmarks [] 1 [⟨"https://b.example", some "B", some "f",
          none⟩] 5).nextId
        [⟨"https://b.example", some "B", some "f", none⟩] 6).store.length
      = (upsertBookmarks [] 1 [⟨"https://b.example", some "B", some "f",
          none⟩] 5).store.length ∧
    (upsertBookmarks (upsertBookmarks [] 1 [⟨"https://b.example", some "B",
        some "f", none⟩] 5).store
        (upsertBookmarks [] 1 [⟨"https://b.example", some "B", some "f",
          none⟩] 5).nextId
        [⟨"https://b.example", some "B", some "f", none⟩] 6).store.map stripMutB
      = (upsertBookmarks [] 1 [⟨"https://b.example", some "B", some "f",
          none⟩] 5).store.map stripMutB :=
  C6_idempotent_upsert [] [] 1 1
    [⟨"https://a.example", some "A", some "a.example", none, 2⟩]
    [⟨"https://b.example", some "B", some "f", none⟩] 5 6
    (by decide) (by decide)
